import Mathlib

/-!
Verification development for the smart dubbing subtitle pipeline.

The subject programs are `src/utils/merge.py` (the subtitle reflow engine
and the SRT timeline store) and `src/utils/speedometer.py` (the audio
duration reconciler).  The Python code is shallowly embedded here:

* Python strings are `List Char`; the Python methods `str.split()` (on
  whitespace runs), `str.strip()`, `str.split(sep)` and `' '.join` are
  translated below as executable functions on `List Char`.  Pythons
  default strip/split whitespace set is modelled by its ASCII part
  (space, tab, newline, carriage return, vertical tab, form feed), which
  covers every character the programs file format can contain.
* Subtitle timestamps are strings `HH:MM:SS.mmm`.  Inside the reflow
  engine they are only ever consumed through `parse_time` (giving a
  `datetime`, i.e. a microsecond count) and reproduced through
  `format_time` (which truncates microseconds to milliseconds).  The
  merge-level model therefore carries times as millisecond counts
  (`Nat`); `parse_time` is multiplication by 1000 and `format_time` is
  truncating division by 1000 on the microsecond grid.  The model
  assumes `start_time ≤ end_time` inside `distribute_time` (the
  TimedEntry invariant); `Nat` subtraction truncates where Python would
  form a negative timedelta.
* The timeline store (`load_srt` / `save_srt`) is modelled at the string
  level, with timestamps kept as raw character lists.
* Fallible Python code (expressions that can raise) returns `Option`:
  `none` is an uncaught exception.
* Python float arithmetic in the reconciler is modelled over `ℚ`; the
  claims about it concern clipping, a threshold comparison and a loop
  that never iterates on the clipped range, all exact in `ℚ`.
-/

/-! ## Python string primitives -/

/-- The ASCII whitespace characters recognised by Python `str.strip()` and
`str.split()` with no argument. -/
def isPySpace (c : Char) : Bool :=
  c == ' ' || c == '\t' || c == '\n' || c == '\r' ||
    c == Char.ofNat 11 || c == Char.ofNat 12

/-- One step of the fold computing `str.split()`: a whitespace character
opens a fresh (possibly empty) segment, any other character is prepended
to the current head segment. -/
def wordsStep (c : Char) (r : List (List Char)) : List (List Char) :=
  if isPySpace c then [] :: r else (c :: r.headD []) :: r.tail

/-- Segments of a string between single whitespace characters (empty
segments included); auxiliary to `pyWords`. -/
def wordsCore (l : List Char) : List (List Char) :=
  l.foldr wordsStep [[]]

/-- Python `str.split()`: maximal runs of non-whitespace characters,
leading/trailing whitespace ignored, whitespace runs collapsed. -/
def pyWords (l : List Char) : List (List Char) :=
  (wordsCore l).filter (fun w => !w.isEmpty)

/-- Python `len(text.split())`, the word-count metric used throughout
`merge.py`. -/
def wordCount (l : List Char) : Nat := (pyWords l).length

/-- Python `str.strip()`: drop leading and trailing whitespace. -/
def pyStrip (l : List Char) : List Char :=
  ((l.dropWhile isPySpace).reverse.dropWhile isPySpace).reverse

/-- Python `' '.join(ws)`. -/
def joinSpace : List (List Char) → List Char
  | [] => []
  | [w] => w
  | w :: v :: ws => w ++ ' ' :: joinSpace (v :: ws)

theorem wordsStep_ne_nil (c : Char) (r : List (List Char)) :
    wordsStep c r ≠ [] := by
  unfold wordsStep; split <;> simp

theorem wordsCore_ne_nil (l : List Char) : wordsCore l ≠ [] := by
  cases l with
  | nil => simp [wordsCore]
  | cons c cs => exact wordsStep_ne_nil c _

theorem wordsCore_cons (c : Char) (cs : List Char) :
    wordsCore (c :: cs) = wordsStep c (wordsCore cs) := rfl

theorem foldr_wordsStep_nilcons (a : List Char) (W : List (List Char)) :
    a.foldr wordsStep ([] :: W) = a.foldr wordsStep [[]] ++ W := by
  induction a with
  | nil => rfl
  | cons c cs ih =>
    simp only [List.foldr_cons, ih]
    obtain ⟨r0, rs, hR⟩ : ∃ r0 rs, cs.foldr wordsStep [[]] = r0 :: rs := by
      cases h : cs.foldr wordsStep [[]] with
      | nil => exact absurd h (wordsCore_ne_nil cs)
      | cons r0 rs => exact ⟨r0, rs, rfl⟩
    rw [hR]
    unfold wordsStep
    split <;> simp

/-- Splitting a space-separated concatenation yields the two word lists
in sequence: the key algebraic fact behind text conservation under the
merge step `current.text += ' ' + next.text`. -/
theorem pyWords_append_space (a b : List Char) :
    pyWords (a ++ ' ' :: b) = pyWords a ++ pyWords b := by
  have key : (a ++ ' ' :: b).foldr wordsStep [[]] =
      a.foldr wordsStep [[]] ++ b.foldr wordsStep [[]] := by
    rw [List.foldr_append]
    have h1 : List.foldr wordsStep [[]] (' ' :: b) =
        [] :: b.foldr wordsStep [[]] := by
      simp only [List.foldr_cons]
      unfold wordsStep
      rw [if_pos (by decide)]
    rw [h1, foldr_wordsStep_nilcons]
  unfold pyWords wordsCore
  rw [key, List.filter_append]

theorem wordsCore_chars (l : List Char) :
    ∀ w ∈ wordsCore l, ∀ c ∈ w, isPySpace c = false := by
  induction l with
  | nil =>
    intro w hw c hc
    simp [wordsCore] at hw
    subst hw
    simp at hc
  | cons x xs ih =>
    intro w hw c hc
    obtain ⟨r0, rs, hR⟩ : ∃ r0 rs, wordsCore xs = r0 :: rs := by
      cases h : wordsCore xs with
      | nil => exact absurd h (wordsCore_ne_nil xs)
      | cons r0 rs => exact ⟨r0, rs, rfl⟩
    rw [wordsCore_cons] at hw
    unfold wordsStep at hw
    by_cases hx : isPySpace x
    · rw [if_pos hx] at hw
      rcases List.mem_cons.mp hw with hw | hw
      · subst hw; simp at hc
      · exact ih w hw c hc
    · rw [if_neg hx, hR] at hw
      simp only [List.headD_cons, List.tail_cons] at hw
      rcases List.mem_cons.mp hw with hw | hw
      · subst hw
        rcases List.mem_cons.mp hc with hc | hc
        · subst hc; exact Bool.of_not_eq_true hx
        · exact ih r0 (hR ▸ List.mem_cons_self r0 rs) c hc
      · exact ih w (hR ▸ List.mem_cons_of_mem r0 hw) c hc

theorem pyWords_chars (l : List Char) :
    ∀ w ∈ pyWords l, ∀ c ∈ w, isPySpace c = false := by
  intro w hw
  exact wordsCore_chars l w (List.mem_of_mem_filter hw)

theorem pyWords_word_ne_nil (l : List Char) :
    ∀ w ∈ pyWords l, w ≠ [] := by
  intro w hw
  have := List.of_mem_filter hw
  simpa using this

/-- A nonempty all-non-whitespace string splits to itself alone. -/
theorem pyWords_single (w : List Char) (h1 : w ≠ [])
    (h2 : ∀ c ∈ w, isPySpace c = false) : pyWords w = [w] := by
  have core : ∀ (v : List Char), v ≠ [] →
      (∀ c ∈ v, isPySpace c = false) → wordsCore v = [v] := by
    intro v
    induction v with
    | nil => intro h; exact absurd rfl h
    | cons x xs ih =>
      intro _ hns
      rw [wordsCore_cons]
      unfold wordsStep
      rw [if_neg (by simp [hns x (List.mem_cons_self x xs)])]
      cases xs with
      | nil => rfl
      | cons y ys =>
        rw [ih (by simp) (fun c hc => hns c (List.mem_cons_of_mem x hc))]
        rfl
  rw [pyWords, core w h1 h2]
  simp [h1]

/-- Python `' '.join` then `str.split()` restores a list of nonempty
whitespace-free words: the algebraic fact behind text conservation under
`split_subtitle_text`. -/
theorem pyWords_joinSpace (ws : List (List Char))
    (h : ∀ w ∈ ws, w ≠ [] ∧ ∀ c ∈ w, isPySpace c = false) :
    pyWords (joinSpace ws) = ws := by
  induction ws with
  | nil => rfl
  | cons w vs ih =>
    cases vs with
    | nil =>
      obtain ⟨h1, h2⟩ := h w (List.mem_cons_self w [])
      exact pyWords_single w h1 h2
    | cons v us =>
      show pyWords (w ++ ' ' :: joinSpace (v :: us)) = _
      rw [pyWords_append_space]
      obtain ⟨h1, h2⟩ := h w (List.mem_cons_self w _)
      rw [pyWords_single w h1 h2,
        ih (fun x hx => h x (List.mem_cons_of_mem w hx))]
      rfl

theorem pyWords_nil_of_allspace (l : List Char)
    (h : ∀ c ∈ l, isPySpace c = true) : pyWords l = [] := by
  induction l with
  | nil => rfl
  | cons c cs ih =>
    show (wordsCore (c :: cs)).filter _ = []
    rw [wordsCore_cons]
    unfold wordsStep
    rw [if_pos (h c (List.mem_cons_self c cs))]
    have heq : List.filter (fun w => !w.isEmpty) ([] :: wordsCore cs) =
        pyWords cs := by
      simp [List.filter_cons, pyWords]
    rw [heq]
    exact ih (fun x hx => h x (List.mem_cons_of_mem c hx))

theorem allspace_of_pyWords_nil (l : List Char) (h : pyWords l = []) :
    ∀ c ∈ l, isPySpace c = true := by
  induction l with
  | nil => simp
  | cons c cs ih =>
    have hcs : pyWords (c :: cs) = List.filter (fun w => !w.isEmpty)
        (wordsStep c (wordsCore cs)) := by rw [pyWords, wordsCore_cons]
    by_cases hc : isPySpace c
    · have hrec : pyWords cs = [] := by
        rw [hcs] at h
        unfold wordsStep at h
        rw [if_pos hc] at h
        simpa [pyWords, List.filter_cons] using h
      intro x hx
      rcases List.mem_cons.mp hx with hx | hx
      · exact hx ▸ hc
      · exact ih hrec x hx
    · exfalso
      rw [hcs] at h
      unfold wordsStep at h
      rw [if_neg hc] at h
      simp [List.filter_cons] at h

theorem pyStrip_nil_of_allspace (l : List Char)
    (h : ∀ c ∈ l, isPySpace c = true) : pyStrip l = [] := by
  unfold pyStrip
  have h1 : l.dropWhile isPySpace = [] := List.dropWhile_eq_nil_iff.mpr h
  rw [h1]
  rfl

theorem allspace_of_pyStrip_nil (l : List Char) (h : pyStrip l = []) :
    ∀ c ∈ l, isPySpace c = true := by
  unfold pyStrip at h
  have h1 : (l.dropWhile isPySpace).reverse.dropWhile isPySpace = [] := by
    have := congrArg List.reverse h
    simpa using this
  have h2 : ∀ c ∈ (l.dropWhile isPySpace).reverse, isPySpace c = true :=
    List.dropWhile_eq_nil_iff.mp h1
  have h3 : ∀ c ∈ l.dropWhile isPySpace, isPySpace c = true := by
    intro c hc
    exact h2 c (List.mem_reverse.mpr hc)
  intro c hc
  rw [← List.takeWhile_append_dropWhile (p := isPySpace) (l := l)] at hc
  rcases List.mem_append.mp hc with hc | hc
  · exact List.mem_takeWhile_imp hc
  · exact h3 c hc

/-- Nonemptiness of the whitespace-trimmed text and of the word list
coincide; both express that the text has at least one word. -/
theorem pyStrip_ne_nil_iff_pyWords_ne_nil (l : List Char) :
    pyStrip l ≠ [] ↔ pyWords l ≠ [] := by
  constructor
  · intro h hw
    exact h (pyStrip_nil_of_allspace l (allspace_of_pyWords_nil l hw))
  · intro h hs
    exact h (pyWords_nil_of_allspace l (allspace_of_pyStrip_nil l hs))

/-! ## The reflow engine (src/utils/merge.py) -/

/-- A subtitle dictionary as handled by merge.py, with keys index,
start_time, end_time, text.  Times are millisecond counts standing for
the canonical HH:MM:SS.mmm strings (see the module header). -/
structure Subtitle where
  index : Int
  start_time : Nat
  end_time : Nat
  text : List Char
deriving DecidableEq, Repr

/-- Python is_complete_sentence: membership of text.strip()[-1] in the
set of the three sentence-ending marks; none models the IndexError
raised when the stripped text is empty. -/
def isCompleteSentence (t : List Char) : Option Bool :=
  match (pyStrip t).getLast? with
  | none => none
  | some c => some (c == '.' || c == '?' || c == '!')

/-- Fuel-indexed kernel of chunkList; the fuel only certifies
termination and any amount at least the list length gives the same
value. -/
def chunkListGo : Nat → List α → Nat → List (List α)
  | _, [], _ => []
  | _, _ :: _, 0 => []
  | 0, _ :: _, _ + 1 => []
  | fuel + 1, a :: l, k + 1 =>
    (a :: l).take (k + 1) :: chunkListGo fuel ((a :: l).drop (k + 1)) (k + 1)

/-- The slicing loop of split_subtitle_text, words[i:i + k] for i in
range(0, len(words), k).  Python raises ValueError on step 0; the zero
case (never reached, split_subtitle_text guards it) returns []. -/
def chunkList (l : List α) (k : Nat) : List (List α) :=
  chunkListGo l.length l k

theorem chunkListGo_congr :
    ∀ (f1 : Nat) (l : List α) (f2 k : Nat), l.length ≤ f1 → l.length ≤ f2 →
      chunkListGo f1 l k = chunkListGo f2 l k := by
  intro f1
  induction f1 with
  | zero =>
    intro l f2 k h1 _
    have hl : l = [] := List.length_eq_zero.mp (Nat.le_zero.mp h1)
    subst hl
    cases f2 <;> rfl
  | succ f1 ih =>
    intro l f2 k h1 h2
    cases l with
    | nil => cases f2 <;> rfl
    | cons a t =>
      cases k with
      | zero => cases f2 with
        | zero => simp at h2
        | succ f2 => rfl
      | succ k =>
        cases f2 with
        | zero => simp at h2
        | succ f2 =>
          show _ :: chunkListGo f1 ((a :: t).drop (k + 1)) (k + 1) =
            _ :: chunkListGo f2 ((a :: t).drop (k + 1)) (k + 1)
          have hd : ((a :: t).drop (k + 1)).length ≤ f1 := by
            simp only [List.length_drop, List.length_cons] at *
            omega
          have hd2 : ((a :: t).drop (k + 1)).length ≤ f2 := by
            simp only [List.length_drop, List.length_cons] at *
            omega
          rw [ih _ f2 (k + 1) hd hd2]

theorem chunkList_nil (k : Nat) : chunkList ([] : List α) k = [] := rfl

theorem chunkList_step (a : α) (l : List α) (k : Nat) :
    chunkList (a :: l) (k + 1) =
      (a :: l).take (k + 1) :: chunkList ((a :: l).drop (k + 1)) (k + 1) := by
  show _ :: chunkListGo l.length ((a :: l).drop (k + 1)) (k + 1) =
    _ :: chunkListGo ((a :: l).drop (k + 1)).length ((a :: l).drop (k + 1))
      (k + 1)
  rw [chunkListGo_congr l.length ((a :: l).drop (k + 1))
    ((a :: l).drop (k + 1)).length (k + 1)
    (by simp only [List.length_drop, List.length_cons]; omega) le_rfl]

/-- Python split_subtitle_text: chop the word list into runs of at most
max_words and rejoin each run with single spaces; none models the
ValueError raised by range(0, n, 0) when max_words is 0. -/
def splitSubtitleText (text : List Char) (maxWords : Nat) :
    Option (List (List Char)) :=
  if maxWords = 0 then none
  else some ((chunkList (pyWords text) maxWords).map joinSpace)

/-- Division of a Python timedelta (in microseconds) by an integer: the
exact quotient is rounded to the nearest microsecond, ties to even.
Unreached n = 0 returns 0. -/
def rne (a n : Nat) : Nat :=
  if n = 0 then 0
  else if 2 * (a % n) < n then a / n
  else if n < 2 * (a % n) then a / n + 1
  else if (a / n) % 2 = 0 then a / n else a / n + 1

/-- Python distribute_time: parse the endpoints (ms scaled to
microseconds), divide the duration into num equal timedelta steps and
format each boundary back, truncating microseconds to milliseconds.
Python raises on num = 0; all call sites pass num at least 1. -/
def distributeTime (s e num : Nat) : List (Nat × Nat) :=
  let q := rne (1000 * e - 1000 * s) num
  (List.range num).map
    (fun i => ((1000 * s + i * q) / 1000, (1000 * s + (i + 1) * q) / 1000))

/-- The merge branch of merge_subtitles: current text catenated with one
space and the next text, end_time taken from next, start_time and index
unchanged. -/
def mergeCombine (cur nxt : Subtitle) : Subtitle :=
  { cur with text := cur.text ++ ' ' :: nxt.text, end_time := nxt.end_time }

/-- Lines 103-116 of merge.py: decide whether next is merged into the
accumulator or the accumulator is flushed; the result pairs the new
accumulator with the flushed entry, and none models the IndexError from
is_complete_sentence (only evaluated when the word counts exceed
max_words, matching the short-circuit or). -/
def mergeStep (minWords maxWords : Nat) (cur nxt : Subtitle) :
    Option (Subtitle × Option Subtitle) :=
  if wordCount cur.text + wordCount nxt.text ≤ maxWords then
    some (mergeCombine cur nxt, none)
  else
    match isCompleteSentence cur.text with
    | none => none
    | some false => some (mergeCombine cur nxt, none)
    | some true =>
      if minWords ≤ wordCount cur.text then some (nxt, some cur)
      else some (mergeCombine cur nxt, none)

/-- The split pass for chunks after the first: each further chunk
flushes the previous accumulator and becomes the new one, its index one
above its predecessor. -/
def splitEmitRest (acc : List Subtitle) (cur : Subtitle) :
    List (List Char × (Nat × Nat)) → List Subtitle × Subtitle
  | [] => (acc, cur)
  | (t, (s, e)) :: rest =>
    splitEmitRest (acc ++ [cur]) ⟨cur.index + 1, s, e, t⟩ rest

/-- The inner for loop of the split pass: the first chunk updates the
accumulator in place (index kept), the rest go through splitEmitRest. -/
def splitEmit (acc : List Subtitle) (cur : Subtitle) :
    List (List Char × (Nat × Nat)) → List Subtitle × Subtitle
  | [] => (acc, cur)
  | (t, (s, e)) :: rest =>
    splitEmitRest acc
      { cur with text := t, start_time := s, end_time := e } rest

/-- Lines 118-135 of merge.py: when the accumulator exceeds max_words,
split its text and redistribute its time span over the chunks. -/
def splitCurrent (maxWords : Nat) (acc : List Subtitle) (cur : Subtitle) :
    Option (List Subtitle × Subtitle) :=
  if maxWords < wordCount cur.text then
    match splitSubtitleText cur.text maxWords with
    | none => none
    | some chunks =>
      some (splitEmit acc cur
        (chunks.zip (distributeTime cur.start_time cur.end_time chunks.length)))
  else some (acc, cur)

/-- One iteration of the outer loop of merge_subtitles for a non-initial
entry: the merge-or-flush decision followed by the split check (the
split check sits inside the else branch, so it runs only on iterations
that saw a decision). -/
def mergeIter (minWords maxWords : Nat) (st : List Subtitle × Subtitle) (nxt : Subtitle) :
    Option (List Subtitle × Subtitle) :=
  match mergeStep minWords maxWords st.2 nxt with
  | none => none
  | some (c, fl) => splitCurrent maxWords (st.1 ++ fl.toList) c

/-- The outer loop of merge_subtitles over the entries after the first. -/
def mergeLoop (minWords maxWords : Nat) :
    List Subtitle × Subtitle → List Subtitle → Option (List Subtitle × Subtitle)
  | st, [] => some st
  | st, nxt :: rest => do
    let st1 ← mergeIter minWords maxWords st nxt
    mergeLoop minWords maxWords st1 rest

/-- Python merge_subtitles (defaults min_words = 4, max_words = 15):
greedy forward merge with word-count and sentence-completeness
tie-breaks, an in-loop split pass, and an unconditional final flush of
the accumulator; none models an uncaught exception. -/
def mergeSubtitles (subtitles : List Subtitle) (minWords maxWords : Nat) :
    Option (List Subtitle) :=
  match subtitles with
  | [] => some []
  | s :: rest =>
    (mergeLoop minWords maxWords ([], s) rest).map
      (fun st => st.1 ++ [st.2])

/-! ## The duration reconciler (src/utils/speedometer.py) -/

/-- Clipping of the raw stretch factor into [0.9, 1.1]
(speedometer.py lines 62-68). -/
def clipStretch (f : ℚ) : ℚ :=
  if 1.1 < f then 1.1 else if f < 0.9 then 0.9 else f

/-- The while loop of speedometer.py lines 76-81: extract stage factors
of exactly 2.0 or 0.5 while the remainder lies outside [0.5, 2.0], then
append the remainder.  The recursion is fuel-bounded; on every factor
the call path can produce (the clipped range) the loop body never runs. -/
def atempoChainAux : Nat → ℚ → List ℚ
  | 0, t => [t]
  | fuel + 1, t =>
    if 2 < t ∨ t < 1/2 then
      (if 2 < t then (2 : ℚ) else 1/2) ::
        atempoChainAux fuel (t / (if 2 < t then (2 : ℚ) else 1/2))
    else [t]

/-- The atempo stage chain built for a stretch factor. -/
def atempoChain (f : ℚ) : List ℚ := atempoChainAux 128 f

/-- A file written by the reconciler: the stretched output (at a
timestamp-qualified path) or the stream copy. -/
inductive OutputWrite
  | stretched
  | copied
deriving DecidableEq, Repr

/-- The observable environment of one adjust_audio_length_ffmpeg call:
existence of the two inputs, the parsed SRT entries (start and end in
seconds; none models a pysrt parse exception), the ffprobe outcome
(error: the invocation raised; ok none: unparseable stdout, so float()
raises; ok some d: parsed duration), and the single ffmpeg invocation
on the chosen path (error: raised; ok code: completed with that exit
status, which the code never inspects). -/
structure MediaEnv where
  audioExists : Bool
  srtExists : Bool
  srtSubs : Option (List (ℚ × ℚ))
  probe : Except Unit (Option ℚ)
  ffmpeg : Except Unit Int

/-- The path decision of speedometer.py line 71: stretch when the
clipped factor lies beyond the fine threshold 0.08, stream copy
otherwise. -/
def reconcilerPath (f : ℚ) : OutputWrite :=
  if 0.08 < |clipStretch f - 1| then .stretched else .copied

/-- Python adjust_audio_length_ffmpeg: returns its boolean result
together with the list of output files written.  Every modelled
exception inside the try block routes through the except handler and
returns False; the invocation on either path writes its output and
returns True whenever it completes, whatever its exit status. -/
def adjustAudioLengthFfmpeg (env : MediaEnv) : Bool × List OutputWrite :=
  if env.audioExists = false then (false, [])
  else if env.srtExists = false then (false, [])
  else
    match env.srtSubs with
    | none => (false, [])
    | some subs =>
      match subs.head?, subs.getLast? with
      | some s0, some sl =>
        (match env.probe with
         | .error _ => (false, [])
         | .ok none => (false, [])
         | .ok (some currentDuration) =>
           if sl.2 - s0.1 = 0 then (false, [])
           else
             match env.ffmpeg with
             | .error _ => (false, [])
             | .ok _ =>
               (true, [reconcilerPath (currentDuration / (sl.2 - s0.1))]))
      | _, _ => (false, [])

/-! ## The timeline store (load_srt / save_srt in src/utils/merge.py) -/

/-- A parsed SRT entry as produced by load_srt: integer index, raw
timestamp strings, text. -/
structure SrtEntry where
  index : Int
  start_time : List Char
  end_time : List Char
  text : List Char
deriving DecidableEq, Repr

/-- The regex split on two consecutive newlines used by load_srt,
scanning left to right over non-overlapping occurrences; acc holds the
current block reversed. -/
def splitNNAux : List Char → List Char → List (List Char)
  | [], acc => [acc.reverse]
  | [c], acc => [(c :: acc).reverse]
  | c :: c2 :: rest, acc =>
    if c = '\n' ∧ c2 = '\n' then acc.reverse :: splitNNAux rest []
    else splitNNAux (c2 :: rest) (c :: acc)

/-- re.split of a blank line separator over the file content. -/
def splitNN (l : List Char) : List (List Char) := splitNNAux l []

/-- Python str.split(sep) for a single-character separator. -/
def splitCharAux (sep : Char) : List Char → List Char → List (List Char)
  | [], acc => [acc.reverse]
  | c :: rest, acc =>
    if c = sep then acc.reverse :: splitCharAux sep rest []
    else splitCharAux sep rest (c :: acc)

/-- Python entry.split of a newline. -/
def splitChar (sep : Char) (l : List Char) : List (List Char) :=
  splitCharAux sep l []

/-- The five-character timing separator of the SRT format. -/
def arrowSep : List Char := [' ', '-', '-', '>', ' ']

/-- Python str.split on the timing separator, leftmost non-overlapping
occurrences; the fuel only certifies termination and any amount at
least the list length gives the same value. -/
def splitArrowGo : Nat → List Char → List Char → List (List Char)
  | _, [], acc => [acc.reverse]
  | 0, c :: rest, acc => [acc.reverse ++ c :: rest]
  | fuel + 1, c :: rest, acc =>
    if c = ' ' ∧ rest.take 4 = ['-', '-', '>', ' ']
    then acc.reverse :: splitArrowGo fuel (rest.drop 4) []
    else splitArrowGo fuel rest (c :: acc)

/-- Python line.split of the timing separator. -/
def splitArrow (l : List Char) : List (List Char) :=
  splitArrowGo l.length l []

/-- The decimal digit characters (only ever applied to values below
ten). -/
def digitChar (d : Nat) : Char :=
  if d = 0 then '0' else if d = 1 then '1' else if d = 2 then '2'
  else if d = 3 then '3' else if d = 4 then '4' else if d = 5 then '5'
  else if d = 6 then '6' else if d = 7 then '7' else if d = 8 then '8'
  else '9'

/-- Fuel-indexed kernel of natDigits; any fuel at least the number
itself gives the same value. -/
def natDigitsGo : Nat → Nat → List Char
  | 0, n => [digitChar n]
  | fuel + 1, n =>
    if n < 10 then [digitChar n]
    else natDigitsGo fuel (n / 10) ++ [digitChar (n % 10)]

/-- Decimal digit string of a natural number, as the f-string of
save_srt prints the 1-based position. -/
def natDigits (n : Nat) : List Char := natDigitsGo n n

/-- Membership of a character in the digit range. -/
def isDigitChar (c : Char) : Bool := 48 ≤ c.toNat && c.toNat ≤ 57

/-- Digit-run accumulator for int(). -/
def parseNatAux : List Char → Nat → Option Nat
  | [], acc => some acc
  | c :: cs, acc =>
    if isDigitChar c then parseNatAux cs (acc * 10 + (c.toNat - 48)) else none

/-- Nonempty all-digit string value. -/
def parseNatChars : List Char → Option Nat
  | [] => none
  | l => parseNatAux l 0

/-- Python int(str): strip whitespace, optional sign, decimal digits
(numeric underscores are not modelled; no SRT index contains them);
none models the ValueError load_srt catches. -/
def pyInt (l : List Char) : Option Int :=
  match pyStrip l with
  | '+' :: ds => (parseNatChars ds).map (fun n => (n : Int))
  | '-' :: ds => (parseNatChars ds).map (fun n => -(n : Int))
  | ds => (parseNatChars ds).map (fun n => (n : Int))

/-- Parsing of one blank-line-delimited block (load_srt lines 162-174):
at least two lines, an integer first line, a timing line split on the
arrow separator whose element 1 must exist; none models the caught
ValueError / IndexError that makes load_srt skip the block. -/
def parseBlock (entry : List Char) : Option SrtEntry :=
  let lines := splitChar '\n' entry
  if 2 ≤ lines.length then
    match pyInt (lines.headD []) with
    | none => none
    | some idx =>
      match (splitArrow (lines.getD 1 [])).get? 1 with
      | none => none
      | some e2 =>
        some ⟨idx, (splitArrow (lines.getD 1 [])).headD [], e2,
          joinSpace (lines.drop 2)⟩
  else none

/-- Python load_srt applied to file content: strip, split on blank
lines, parse each block, skip malformed ones. -/
def loadSrt (content : List Char) : List SrtEntry :=
  (splitNN (pyStrip content)).filterMap parseBlock

/-- The block save_srt writes for the entry at 1-based position i: the
position as index line, the timing line, the text, and the blank
separator. -/
def srtBlock (i : Nat) (e : SrtEntry) : List Char :=
  natDigits i ++ '\n' :: (e.start_time ++ arrowSep ++ e.end_time) ++
    '\n' :: e.text ++ ['\n', '\n']

/-- Python save_srt: enumerate the entries from 1 and write each block. -/
def saveSrt (subs : List SrtEntry) : List Char :=
  (subs.mapIdx (fun j e => srtBlock (j + 1) e)).flatten

/-- The canonical timestamp shape HH:MM:SS.mmm that format_time writes
and parse_time consumes. -/
def validTimestamp : List Char → Bool
  | [h1, h2, c1, m1, m2, c2, s1, s2, d, x1, x2, x3] =>
    isDigitChar h1 && isDigitChar h2 && c1 == ':' && isDigitChar m1 &&
      isDigitChar m2 && c2 == ':' && isDigitChar s1 && isDigitChar s2 &&
      d == '.' && isDigitChar x1 && isDigitChar x2 && isDigitChar x3
  | _ => false

/-! ## Arithmetic facts about the timedelta division and chunking -/

theorem rne_bounds (a n : Nat) (hn : n ≠ 0) :
    n * rne a n ≤ a + n / 2 ∧ a ≤ n * rne a n + n / 2 := by
  have ha : n * (a / n) + a % n = a := Nat.div_add_mod a n
  have hr : a % n < n := Nat.mod_lt _ (Nat.pos_of_ne_zero hn)
  have hnq : n * (a / n + 1) = n * (a / n) + n := by ring
  unfold rne
  rw [if_neg hn]
  split_ifs with h1 h2 h3
  · constructor <;> omega
  · rw [hnq]
    generalize n * (a / n) = p at ha ⊢
    constructor <;> omega
  · generalize n * (a / n) = p at ha ⊢
    constructor <;> omega
  · rw [hnq]
    generalize n * (a / n) = p at ha ⊢
    constructor <;> omega

theorem chunkList_facts : ∀ (fuel : Nat) (l : List α) (k : Nat),
    l.length ≤ fuel → k ≠ 0 →
    (chunkList l k).flatten = l ∧
    (∀ w ∈ chunkList l k, w ≠ [] ∧ w.length ≤ k ∧ ∀ a ∈ w, a ∈ l) ∧
    (chunkList l k).length ≤ l.length ∧
    (l ≠ [] → chunkList l k ≠ []) ∧
    (∀ i w, i + 1 < (chunkList l k).length →
      (chunkList l k)[i]? = some w → w.length = k) := by
  intro fuel
  induction fuel with
  | zero =>
    intro l k hl _
    have : l = [] := List.length_eq_zero.mp (Nat.le_zero.mp hl)
    subst this
    refine ⟨by simp [chunkList_nil], by simp [chunkList_nil],
      by simp [chunkList_nil], ?_, ?_⟩
    · intro h; exact absurd rfl h
    · intro i w hi
      simp [chunkList_nil] at hi
  | succ fuel ih =>
    intro l k hl hk
    cases l with
    | nil =>
      refine ⟨by simp [chunkList_nil], by simp [chunkList_nil],
        by simp [chunkList_nil], ?_, ?_⟩
      · intro h; exact absurd rfl h
      · intro i w hi
        simp [chunkList_nil] at hi
    | cons a t =>
      cases k with
      | zero => exact absurd rfl hk
      | succ k =>
        have hstep : chunkList (a :: t) (k + 1) =
            (a :: t).take (k + 1) :: chunkList ((a :: t).drop (k + 1)) (k + 1) :=
          chunkList_step a t k
        have hdl : ((a :: t).drop (k + 1)).length ≤ fuel := by
          simp only [List.length_drop, List.length_cons] at *
          omega
        obtain ⟨ihflat, ihmem, ihlen, ihne, ihget⟩ :=
          ih ((a :: t).drop (k + 1)) (k + 1) hdl hk
        refine ⟨?_, ?_, ?_, ?_, ?_⟩
        · rw [hstep]
          simp only [List.flatten_cons, ihflat, List.take_append_drop]
        · rw [hstep]
          intro w hw
          rcases List.mem_cons.mp hw with hw | hw
          · subst hw
            refine ⟨by simp, by simp, ?_⟩
            intro x hx
            exact List.mem_of_mem_take hx
          · obtain ⟨h1, h2, h3⟩ := ihmem w hw
            exact ⟨h1, h2, fun x hx => List.mem_of_mem_drop (h3 x hx)⟩
        · rw [hstep]
          simp only [List.length_cons, List.length_drop] at ihlen ⊢
          omega
        · intro _
          rw [hstep]
          simp
        · intro i w hi hg
          rw [hstep] at hi hg
          cases i with
          | zero =>
            simp only [List.getElem?_cons_zero, Option.some.injEq] at hg
            have hne2 : chunkList ((a :: t).drop (k + 1)) (k + 1) ≠ [] := by
              simp only [List.length_cons] at hi
              intro hnil
              rw [hnil] at hi
              simp at hi
            have hdrop_ne : (a :: t).drop (k + 1) ≠ [] := by
              intro hnil
              rw [hnil] at hne2
              simp [chunkList_nil] at hne2
            have hlen2 : k + 1 < (a :: t).length := by
              by_contra hcon
              push_neg at hcon
              exact hdrop_ne (List.drop_eq_nil_of_le hcon)
            rw [← hg]
            simp only [List.length_take]
            omega
          | succ i =>
            simp only [List.getElem?_cons_succ] at hg
            simp only [List.length_cons] at hi
            exact ihget i w (by omega) hg

theorem chunkList_flatten (l : List α) (k : Nat) (hk : k ≠ 0) :
    (chunkList l k).flatten = l :=
  (chunkList_facts l.length l k le_rfl hk).1

theorem chunkList_mem (l : List α) (k : Nat) (hk : k ≠ 0) :
    ∀ w ∈ chunkList l k, w ≠ [] ∧ w.length ≤ k ∧ ∀ a ∈ w, a ∈ l :=
  (chunkList_facts l.length l k le_rfl hk).2.1

theorem chunkList_length_le (l : List α) (k : Nat) (hk : k ≠ 0) :
    (chunkList l k).length ≤ l.length :=
  (chunkList_facts l.length l k le_rfl hk).2.2.1

theorem chunkList_ne_nil (l : List α) (k : Nat) (hk : k ≠ 0) (hl : l ≠ []) :
    chunkList l k ≠ [] :=
  (chunkList_facts l.length l k le_rfl hk).2.2.2.1 hl

theorem chunkList_full (l : List α) (k : Nat) (hk : k ≠ 0) :
    ∀ i w, i + 1 < (chunkList l k).length → (chunkList l k)[i]? = some w →
      w.length = k :=
  (chunkList_facts l.length l k le_rfl hk).2.2.2.2

/-! ## Facts about distribute_time -/

theorem distributeTime_length (s e n : Nat) :
    (distributeTime s e n).length = n := by
  unfold distributeTime
  simp

theorem distributeTime_mem_le (s e n : Nat) :
    ∀ p ∈ distributeTime s e n, p.1 ≤ p.2 := by
  unfold distributeTime
  intro p hp
  simp only [List.mem_map, List.mem_range] at hp
  obtain ⟨i, _, rfl⟩ := hp
  apply Nat.div_le_div_right
  have h1 : i * rne (1000 * e - 1000 * s) n ≤
      (i + 1) * rne (1000 * e - 1000 * s) n :=
    Nat.mul_le_mul_right _ (by omega)
  omega

theorem distributeTime_chain (s e n : Nat) :
    (distributeTime s e n).Chain' (fun p r => p.2 = r.1) := by
  unfold distributeTime
  rw [List.chain'_map]
  cases n with
  | zero => simp
  | succ n =>
    rw [List.chain'_range_succ]
    intro m _
    rfl

theorem distributeTime_head (s e n : Nat) (hn : n ≠ 0) :
    ∀ p, (distributeTime s e n).head? = some p → p.1 = s := by
  intro p hp
  unfold distributeTime at hp
  cases n with
  | zero => exact absurd rfl hn
  | succ m =>
    rw [List.range_succ_eq_map, List.map_cons, List.head?_cons] at hp
    have hps : p = ((1000 * s + 0 * rne (1000 * e - 1000 * s) (m + 1)) / 1000,
        (1000 * s + (0 + 1) * rne (1000 * e - 1000 * s) (m + 1)) / 1000) := by
      exact (Option.some.injEq _ _).mp hp.symm
    rw [hps]
    simp only [Nat.zero_mul, Nat.add_zero]
    omega

theorem distributeTime_last (s e n : Nat) (hn : n ≠ 0) :
    ∀ p, (distributeTime s e n).getLast? = some p →
      p.2 = (1000 * s + n * rne (1000 * e - 1000 * s) n) / 1000 := by
  intro p hp
  unfold distributeTime at hp
  cases n with
  | zero => exact absurd rfl hn
  | succ m =>
    rw [List.range_succ, List.map_append] at hp
    simp only [List.map_cons, List.map_nil, List.getLast?_concat,
      Option.some.injEq] at hp
    rw [← hp]

/-! ## Shape of the split emission loop -/

theorem splitEmitRest_shape :
    ∀ (rest : List (List Char × (Nat × Nat))) (acc : List Subtitle)
      (cur : Subtitle),
    ∃ nw cur2, splitEmitRest acc cur rest = (acc ++ nw, cur2) ∧
      (nw ++ [cur2]).map (fun x => x.text) =
        cur.text :: rest.map (fun p => p.1) ∧
      (nw ++ [cur2]).map (fun x => (x.start_time, x.end_time)) =
        (cur.start_time, cur.end_time) :: rest.map (fun p => p.2) := by
  intro rest
  induction rest with
  | nil =>
    intro acc cur
    exact ⟨[], cur, by simp [splitEmitRest], by simp, by simp⟩
  | cons p rest ih =>
    intro acc cur
    obtain ⟨t, s, e⟩ := p
    obtain ⟨nw, cur2, heq, htext, htimes⟩ :=
      ih (acc ++ [cur]) ⟨cur.index + 1, s, e, t⟩
    refine ⟨cur :: nw, cur2, ?_, ?_, ?_⟩
    · show splitEmitRest (acc ++ [cur]) ⟨cur.index + 1, s, e, t⟩ rest = _
      rw [heq]
      simp
    · simp only [List.cons_append, List.map_cons, htext]
    · simp only [List.cons_append, List.map_cons, htimes]

theorem splitEmit_shape (acc : List Subtitle) (cur : Subtitle)
    (pairs : List (List Char × (Nat × Nat))) (hp : pairs ≠ []) :
    ∃ nw cur2, splitEmit acc cur pairs = (acc ++ nw, cur2) ∧
      (nw ++ [cur2]).map (fun x => x.text) = pairs.map (fun p => p.1) ∧
      (nw ++ [cur2]).map (fun x => (x.start_time, x.end_time)) =
        pairs.map (fun p => p.2) := by
  cases pairs with
  | nil => exact absurd rfl hp
  | cons p rest =>
    obtain ⟨t, s, e⟩ := p
    obtain ⟨nw, cur2, heq, ht, hm⟩ := splitEmitRest_shape rest acc
      { cur with text := t, start_time := s, end_time := e }
    exact ⟨nw, cur2, heq, by simpa using ht, by simpa using hm⟩

/-! ## The split check characterised -/

theorem splitSubtitleText_eq (t : List Char) (mx : Nat) (hmx : mx ≠ 0) :
    splitSubtitleText t mx = some ((chunkList (pyWords t) mx).map joinSpace) := by
  unfold splitSubtitleText
  rw [if_neg hmx]

theorem last_end_bounds (s e m wc P : Nat) (hse : s ≤ e) (hmwc : m ≤ wc)
    (hb1 : P ≤ (1000 * e - 1000 * s) + m / 2)
    (hb2 : (1000 * e - 1000 * s) ≤ P + m / 2) :
    1000 * ((1000 * s + P) / 1000) ≤ 1000 * e + wc / 2 ∧
    1000 * e ≤ 1000 * ((1000 * s + P) / 1000) + wc / 2 + 999 ∧
    (wc < 2000 → (1000 * s + P) / 1000 ≤ e) := by
  omega

theorem splitCurrent_spec (mx : Nat) (hmx : mx ≠ 0) (acc : List Subtitle)
    (c : Subtitle) (hw : pyWords c.text ≠ []) :
    ∃ nw cur2, splitCurrent mx acc c = some (acc ++ nw, cur2) ∧
      pyWords cur2.text ≠ [] ∧
      (∀ x ∈ nw ++ [cur2], pyWords x.text ≠ []) ∧
      ((nw ++ [cur2]).map (fun x => pyWords x.text)).flatten = pyWords c.text ∧
      wordCount cur2.text ≤ wordCount c.text ∧
      (∀ x, (nw ++ [cur2]).head? = some x → x.start_time = c.start_time) ∧
      (c.start_time ≤ c.end_time →
        ∀ x ∈ nw ++ [cur2], x.start_time ≤ x.end_time) ∧
      (nw ++ [cur2]).Chain' (fun a b => a.end_time ≤ b.start_time) ∧
      (c.start_time ≤ c.end_time →
        1000 * cur2.end_time ≤ 1000 * c.end_time + wordCount c.text / 2 ∧
        1000 * c.end_time ≤ 1000 * cur2.end_time + wordCount c.text / 2 + 999) ∧
      (c.start_time ≤ c.end_time → wordCount c.text < 2000 →
        cur2.end_time ≤ c.end_time) := by
  by_cases hbig : mx < wordCount c.text
  case neg =>
    refine ⟨[], c, ?_, hw, ?_, by simp, le_rfl, ?_, ?_, by simp, ?_, ?_⟩
    · unfold splitCurrent
      rw [if_neg hbig]
      simp
    · intro x hx
      simp only [List.nil_append, List.mem_singleton] at hx
      subst hx; exact hw
    · intro x hx
      simp only [List.nil_append, List.head?_cons, Option.some.injEq] at hx
      subst hx; rfl
    · intro hse x hx
      simp only [List.nil_append, List.mem_singleton] at hx
      subst hx; exact hse
    · intro _
      omega
    · intro hse _
      exact le_rfl
  case pos =>
    have hchmem := chunkList_mem (pyWords c.text) mx hmx
    have hchne : chunkList (pyWords c.text) mx ≠ [] :=
      chunkList_ne_nil (pyWords c.text) mx hmx hw
    set ch := chunkList (pyWords c.text) mx with hch
    set chunks := ch.map joinSpace with hchunks
    set m := chunks.length with hm
    set ivs := distributeTime c.start_time c.end_time m with hivs
    have hml : ivs.length = m := distributeTime_length _ _ _
    have hmne : m ≠ 0 := by
      simp only [hm, hchunks, List.length_map]
      intro h0
      exact hchne (List.length_eq_zero.mp h0)
    have hzne : chunks.zip ivs ≠ [] := by
      intro h0
      have := congrArg List.length h0
      simp only [List.length_zip, hml, List.length_nil] at this
      omega
    obtain ⟨nw, cur2, heq, htext, htimes⟩ := splitEmit_shape acc c (chunks.zip ivs) hzne
    have htextc : (nw ++ [cur2]).map (fun x => x.text) = chunks := by
      rw [htext, List.map_fst_zip]
      omega
    have htimesc : (nw ++ [cur2]).map (fun x => (x.start_time, x.end_time)) = ivs := by
      rw [htimes, List.map_snd_zip]
      omega
    have hwordsof : ∀ x ∈ nw ++ [cur2], ∃ w ∈ ch,
        x.text = joinSpace w ∧ pyWords x.text = w := by
      intro x hx
      have hxt : x.text ∈ chunks := by
        rw [← htextc]
        exact List.mem_map_of_mem _ hx
      obtain ⟨w, hwch, hwx⟩ := List.mem_map.mp hxt
      refine ⟨w, hwch, hwx.symm, ?_⟩
      obtain ⟨hwne, _, hsub⟩ := hchmem w hwch
      rw [← hwx]
      exact pyWords_joinSpace w (fun a ha =>
        ⟨pyWords_word_ne_nil _ _ (hsub a ha), pyWords_chars _ _ (hsub a ha)⟩)
    have htimesof : ∀ x ∈ nw ++ [cur2], (x.start_time, x.end_time) ∈ ivs := by
      intro x hx
      rw [← htimesc]
      exact List.mem_map_of_mem _ hx
    have hcur2mem : cur2 ∈ nw ++ [cur2] := by simp
    obtain ⟨wlast, hwlast, _, hcur2w⟩ := hwordsof cur2 hcur2mem
    refine ⟨nw, cur2, ?_, ?_, ?_, ?_, ?_, ?_, ?_, ?_, ?_, ?_⟩
    · unfold splitCurrent
      rw [if_pos hbig, splitSubtitleText_eq c.text mx hmx]
      show some (splitEmit acc c (chunks.zip (distributeTime c.start_time c.end_time chunks.length))) = _
      rw [← hm, ← hivs, heq]
    · rw [hcur2w]
      exact (hchmem wlast hwlast).1
    · intro x hx
      obtain ⟨w, hwch, _, hxw⟩ := hwordsof x hx
      rw [hxw]
      exact (hchmem w hwch).1
    · have hmapw : (nw ++ [cur2]).map (fun x => pyWords x.text) = ch := by
        have h1 : (nw ++ [cur2]).map (fun x => pyWords x.text) =
            ((nw ++ [cur2]).map (fun x => x.text)).map pyWords := by
          rw [List.map_map]
          rfl
        rw [h1, htextc, hchunks, List.map_map]
        have h2 : ∀ w ∈ ch, (pyWords ∘ joinSpace) w = id w := by
          intro w hwch
          obtain ⟨hwne, _, hsub⟩ := hchmem w hwch
          show pyWords (joinSpace w) = w
          exact pyWords_joinSpace w (fun a ha =>
            ⟨pyWords_word_ne_nil _ _ (hsub a ha), pyWords_chars _ _ (hsub a ha)⟩)
        rw [List.map_congr_left h2, List.map_id]
      rw [hmapw, hch]
      exact chunkList_flatten _ _ hmx
    · have hbig2 : mx < (pyWords c.text).length := hbig
      unfold wordCount
      rw [hcur2w]
      have := (hchmem wlast hwlast).2.1
      omega
    · intro x hx
      have h1 : ((nw ++ [cur2]).map (fun y => (y.start_time, y.end_time))).head? =
          some (x.start_time, x.end_time) := by
        rw [List.head?_map, hx]
        rfl
      rw [htimesc] at h1
      exact distributeTime_head c.start_time c.end_time m hmne _ h1
    · intro _ x hx
      exact distributeTime_mem_le _ _ _ _ (htimesof x hx)
    · have hchain : List.Chain' (fun p r => p.2 = r.1) ivs :=
        distributeTime_chain c.start_time c.end_time m
      rw [← htimesc] at hchain
      have h2 := (List.chain'_map (fun x : Subtitle =>
        (x.start_time, x.end_time))).mp hchain
      exact h2.imp (fun a b hab => le_of_eq hab)
    · intro hse
      have hlast2 : ((nw ++ [cur2]).map (fun y => (y.start_time, y.end_time))).getLast? =
          some (cur2.start_time, cur2.end_time) := by
        rw [List.getLast?_map]
        rw [List.getLast?_concat]
        rfl
      rw [htimesc] at hlast2
      have hend : cur2.end_time = (1000 * c.start_time +
          m * rne (1000 * c.end_time - 1000 * c.start_time) m) / 1000 :=
        distributeTime_last c.start_time c.end_time m hmne _ hlast2
      have hb := rne_bounds (1000 * c.end_time - 1000 * c.start_time) m hmne
      have hmwc : m ≤ wordCount c.text := by
        have h1 : m = (chunkList (pyWords c.text) mx).length := by
          rw [hm, hchunks, List.length_map, hch]
        have h2 := chunkList_length_le (pyWords c.text) mx hmx
        unfold wordCount
        omega
      have key := last_end_bounds c.start_time c.end_time m (wordCount c.text)
        (m * rne (1000 * c.end_time - 1000 * c.start_time) m) hse hmwc hb.1 hb.2
      rw [hend]
      exact ⟨key.1, key.2.1⟩
    · intro hse hsmall
      have hlast2 : ((nw ++ [cur2]).map (fun y => (y.start_time, y.end_time))).getLast? =
          some (cur2.start_time, cur2.end_time) := by
        rw [List.getLast?_map]
        rw [List.getLast?_concat]
        rfl
      rw [htimesc] at hlast2
      have hend : cur2.end_time = (1000 * c.start_time +
          m * rne (1000 * c.end_time - 1000 * c.start_time) m) / 1000 :=
        distributeTime_last c.start_time c.end_time m hmne _ hlast2
      have hb := rne_bounds (1000 * c.end_time - 1000 * c.start_time) m hmne
      have hmwc : m ≤ wordCount c.text := by
        have h1 : m = (chunkList (pyWords c.text) mx).length := by
          rw [hm, hchunks, List.length_map, hch]
        have h2 := chunkList_length_le (pyWords c.text) mx hmx
        unfold wordCount
        omega
      have key := last_end_bounds c.start_time c.end_time m (wordCount c.text)
        (m * rne (1000 * c.end_time - 1000 * c.start_time) m) hse hmwc hb.1 hb.2
      rw [hend]
      exact key.2.2 hsmall

/-! ## The merge decision characterised -/

theorem isCompleteSentence_some (t : List Char) (h : pyStrip t ≠ []) :
    ∃ b, isCompleteSentence t = some b := by
  unfold isCompleteSentence
  have hs : (pyStrip t).getLast?.isSome := List.getLast?_isSome.mpr h
  cases hl : (pyStrip t).getLast? with
  | none => rw [hl] at hs; simp at hs
  | some c => exact ⟨_, rfl⟩

theorem mergeStep_spec (mn mx : Nat) (cur nxt : Subtitle)
    (h : pyStrip cur.text ≠ []) :
    (mergeStep mn mx cur nxt = some (mergeCombine cur nxt, none) ∨
      mergeStep mn mx cur nxt = some (nxt, some cur)) ∧
    (mergeStep mn mx cur nxt = some (mergeCombine cur nxt, none) ↔
      (wordCount cur.text + wordCount nxt.text ≤ mx ∨
        isCompleteSentence cur.text = some false ∨ wordCount cur.text < mn)) ∧
    (mergeStep mn mx cur nxt = some (nxt, some cur) ↔
      ¬(wordCount cur.text + wordCount nxt.text ≤ mx ∨
        isCompleteSentence cur.text = some false ∨ wordCount cur.text < mn)) := by
  obtain ⟨b, hb⟩ := isCompleteSentence_some cur.text h
  unfold mergeStep
  by_cases h1 : wordCount cur.text + wordCount nxt.text ≤ mx
  · rw [if_pos h1]
    refine ⟨Or.inl rfl, ?_, ?_⟩
    · simp [h1]
    · simp [h1]
  · rw [if_neg h1, hb]
    cases b with
    | false =>
      refine ⟨Or.inl rfl, ?_, ?_⟩
      · simp [hb]
      · simp [hb]
    | true =>
      by_cases h2 : mn ≤ wordCount cur.text
      · rw [if_pos h2]
        refine ⟨Or.inr rfl, ?_, ?_⟩
        · simp only [Option.some.injEq, Prod.mk.injEq]
          constructor
          · intro hcon
            exact absurd hcon.2 (by simp)
          · intro hcon
            rcases hcon with hcon | hcon | hcon
            · exact absurd hcon h1
            · simp at hcon
            · omega
        · simp only [Option.some.injEq, Prod.mk.injEq]
          constructor
          · intro _
            intro hcon
            rcases hcon with hcon | hcon | hcon
            · exact absurd hcon h1
            · simp at hcon
            · omega
          · intro _
            trivial
      · rw [if_neg h2]
        refine ⟨Or.inl rfl, ?_, ?_⟩
        · simp only [Option.some.injEq, Prod.mk.injEq]
          constructor
          · intro _
            exact Or.inr (Or.inr (by omega))
          · intro _
            trivial
        · simp only [Option.some.injEq, Prod.mk.injEq]
          constructor
          · intro hcon
            exact absurd hcon.2 (by simp)
          · intro hcon
            exact absurd (Or.inr (Or.inr (by omega))) hcon

/-! ## Totality of the merge loop on nonempty texts -/

theorem pyWords_mergeCombine (cur nxt : Subtitle) :
    pyWords (mergeCombine cur nxt).text = pyWords cur.text ++ pyWords nxt.text := by
  unfold mergeCombine
  exact pyWords_append_space cur.text nxt.text

theorem mergeIter_merge_eq (mn mx : Nat) (acc : List Subtitle)
    (cur nxt : Subtitle)
    (hcase : mergeStep mn mx cur nxt = some (mergeCombine cur nxt, none)) :
    mergeIter mn mx (acc, cur) nxt = splitCurrent mx acc (mergeCombine cur nxt) := by
  unfold mergeIter
  rw [hcase]
  simp [Option.toList]

theorem mergeIter_flush_eq (mn mx : Nat) (acc : List Subtitle)
    (cur nxt : Subtitle)
    (hcase : mergeStep mn mx cur nxt = some (nxt, some cur)) :
    mergeIter mn mx (acc, cur) nxt = splitCurrent mx (acc ++ [cur]) nxt := by
  unfold mergeIter
  rw [hcase]
  rfl

theorem mergeLoop_cons (mn mx : Nat) (st : List Subtitle × Subtitle)
    (nxt : Subtitle) (rest : List Subtitle) :
    mergeLoop mn mx st (nxt :: rest) =
      (mergeIter mn mx st nxt).bind (fun st1 => mergeLoop mn mx st1 rest) := rfl

theorem mergeLoop_total (mn mx : Nat) (hmx : mx ≠ 0) :
    ∀ (rest : List Subtitle) (acc : List Subtitle) (cur : Subtitle),
    pyWords cur.text ≠ [] →
    (∀ e ∈ rest, pyWords e.text ≠ []) →
    ∃ acc2 cur2, mergeLoop mn mx (acc, cur) rest = some (acc2, cur2) ∧
      pyWords cur2.text ≠ [] := by
  intro rest
  induction rest with
  | nil =>
    intro acc cur hc _
    exact ⟨acc, cur, rfl, hc⟩
  | cons nxt rest ih =>
    intro acc cur hc hr
    have hstrip : pyStrip cur.text ≠ [] :=
      (pyStrip_ne_nil_iff_pyWords_ne_nil _).mpr hc
    have hnxt : pyWords nxt.text ≠ [] := hr nxt (List.mem_cons_self _ _)
    obtain ⟨hdisj, -, -⟩ := mergeStep_spec mn mx cur nxt hstrip
    rcases hdisj with hcase | hcase
    · have hcw : pyWords (mergeCombine cur nxt).text ≠ [] := by
        rw [pyWords_mergeCombine]
        simp [hc]
      obtain ⟨nw, cur2, hsplit, hw2, -, -, -, -, -, -, -, -⟩ :=
        splitCurrent_spec mx hmx acc (mergeCombine cur nxt) hcw
      rw [mergeLoop_cons, mergeIter_merge_eq mn mx acc cur nxt hcase, hsplit]
      exact ih (acc ++ nw) cur2 hw2 (fun x hx => hr x (List.mem_cons_of_mem _ hx))
    · obtain ⟨nw, cur2, hsplit, hw2, -, -, -, -, -, -, -, -⟩ :=
        splitCurrent_spec mx hmx (acc ++ [cur]) nxt hnxt
      rw [mergeLoop_cons, mergeIter_flush_eq mn mx acc cur nxt hcase, hsplit]
      exact ih (acc ++ [cur] ++ nw) cur2 hw2
        (fun x hx => hr x (List.mem_cons_of_mem _ hx))

/-! ## Conservation and ordering invariants of the merge loop -/

/-- The word sequence carried by a subtitle list, in order. -/
def wordsConcat (l : List Subtitle) : List (List Char) :=
  (l.map (fun x => pyWords x.text)).flatten

/-- Total whitespace-delimited word count of a subtitle list. -/
def totalWords (l : List Subtitle) : Nat :=
  (l.map (fun x => wordCount x.text)).sum

theorem wordsConcat_append (l1 l2 : List Subtitle) :
    wordsConcat (l1 ++ l2) = wordsConcat l1 ++ wordsConcat l2 := by
  unfold wordsConcat
  rw [List.map_append, List.flatten_append]

theorem totalWords_cons (x : Subtitle) (l : List Subtitle) :
    totalWords (x :: l) = wordCount x.text + totalWords l := by
  unfold totalWords
  simp

theorem wordCount_mergeCombine (cur nxt : Subtitle) :
    wordCount (mergeCombine cur nxt).text =
      wordCount cur.text + wordCount nxt.text := by
  unfold wordCount
  rw [pyWords_mergeCombine, List.length_append]

theorem head?_append_left (l1 l2 : List α) (x : α) (h : l1.head? = some x) :
    (l1 ++ l2).head? = some x := by
  cases l1 with
  | nil => simp at h
  | cons a t => simpa using h

theorem wordsConcat_snoc (l : List Subtitle) (x : Subtitle) :
    wordsConcat (l ++ [x]) = wordsConcat l ++ pyWords x.text := by
  rw [wordsConcat_append]
  unfold wordsConcat
  simp

theorem splitStage (mx : Nat) (hmx : mx ≠ 0) (accMid : List Subtitle)
    (cMid : Subtitle)
    (hcw : pyWords cMid.text ≠ [])
    (hsem : cMid.start_time ≤ cMid.end_time)
    (haccm : ∀ x ∈ accMid, x.start_time ≤ x.end_time)
    (hchainm : (accMid ++ [cMid]).Chain' (fun a b => a.end_time ≤ b.start_time))
    (hwcm : wordCount cMid.text < 2000) :
    ∃ nw cur1, splitCurrent mx accMid cMid = some (accMid ++ nw, cur1) ∧
      pyWords cur1.text ≠ [] ∧
      wordsConcat (accMid ++ nw) ++ pyWords cur1.text =
        wordsConcat accMid ++ pyWords cMid.text ∧
      (∀ x y, ((accMid ++ nw) ++ [cur1]).head? = some x →
        (accMid ++ [cMid]).head? = some y → x.start_time = y.start_time) ∧
      (∀ x ∈ (accMid ++ nw) ++ [cur1], x.start_time ≤ x.end_time) ∧
      ((accMid ++ nw) ++ [cur1]).Chain' (fun a b => a.end_time ≤ b.start_time) ∧
      cur1.end_time ≤ cMid.end_time ∧ cMid.end_time ≤ cur1.end_time + 1 ∧
      wordCount cur1.text ≤ wordCount cMid.text := by
  obtain ⟨nw, cur1, hsplit, hw1, hallw, hflat, hwcle, hheads, hses, hchains,
    hbounds, hsmall⟩ := splitCurrent_spec mx hmx accMid cMid hcw
  obtain ⟨hcm1, hcm2⟩ := List.chain'_append.mp hchainm
  refine ⟨nw, cur1, hsplit, hw1, ?_, ?_, ?_, ?_, ?_, ?_, hwcle⟩
  · rw [wordsConcat_append, List.append_assoc]
    congr 1
    have h1 : wordsConcat nw ++ pyWords cur1.text = wordsConcat (nw ++ [cur1]) :=
      (wordsConcat_snoc nw cur1).symm
    rw [h1]
    exact hflat
  · intro x y hx hy
    cases accMid with
    | nil =>
      simp only [List.nil_append] at hx hy
      rw [List.head?_cons, Option.some.injEq] at hy
      rw [hheads x hx, ← hy]
    | cons a t =>
      simp only [List.cons_append, List.head?_cons, Option.some.injEq] at hx hy
      rw [← hx, ← hy]
  · intro x hx
    rw [List.append_assoc] at hx
    rcases List.mem_append.mp hx with hx | hx
    · exact haccm x hx
    · exact hses hsem x hx
  · rw [List.append_assoc]
    rw [List.chain'_append]
    refine ⟨hcm1, hchains, ?_⟩
    intro x hx y hy
    have hy1 : y.start_time = cMid.start_time := hheads y hy
    have hx1 := hcm2.2 x hx cMid (by simp)
    omega
  · exact hsmall hsem hwcm
  · have hb := (hbounds hsem).2
    omega

theorem mergeIter_invariant (mn mx : Nat) (hmx : mx ≠ 0) (acc : List Subtitle)
    (cur nxt : Subtitle)
    (hcw : pyWords cur.text ≠ [])
    (hnw : pyWords nxt.text ≠ [])
    (hse : cur.start_time ≤ cur.end_time)
    (hnse : nxt.start_time ≤ nxt.end_time)
    (hcn : cur.end_time ≤ nxt.start_time)
    (hacc : ∀ x ∈ acc, x.start_time ≤ x.end_time)
    (hchain : (acc ++ [cur]).Chain' (fun a b => a.end_time ≤ b.start_time))
    (hwc : wordCount cur.text + wordCount nxt.text < 2000) :
    ∃ acc1 cur1, mergeIter mn mx (acc, cur) nxt = some (acc1, cur1) ∧
      pyWords cur1.text ≠ [] ∧
      wordsConcat acc1 ++ pyWords cur1.text =
        wordsConcat acc ++ pyWords cur.text ++ pyWords nxt.text ∧
      (∀ x y, (acc1 ++ [cur1]).head? = some x →
        (acc ++ [cur]).head? = some y → x.start_time = y.start_time) ∧
      (∀ x ∈ acc1 ++ [cur1], x.start_time ≤ x.end_time) ∧
      (acc1 ++ [cur1]).Chain' (fun a b => a.end_time ≤ b.start_time) ∧
      cur1.end_time ≤ nxt.end_time ∧ nxt.end_time ≤ cur1.end_time + 1 ∧
      wordCount cur1.text ≤ wordCount cur.text + wordCount nxt.text := by
  have hstrip : pyStrip cur.text ≠ [] :=
    (pyStrip_ne_nil_iff_pyWords_ne_nil _).mpr hcw
  obtain ⟨hdisj, -, -⟩ := mergeStep_spec mn mx cur nxt hstrip
  rcases hdisj with hcase | hcase
  · -- merge branch: the accumulator absorbs nxt, then the split check runs
    have hc1s : (mergeCombine cur nxt).start_time = cur.start_time := rfl
    have hc1e : (mergeCombine cur nxt).end_time = nxt.end_time := rfl
    have hc1w : pyWords (mergeCombine cur nxt).text ≠ [] := by
      rw [pyWords_mergeCombine]
      simp [hcw]
    have hc1se : (mergeCombine cur nxt).start_time ≤
        (mergeCombine cur nxt).end_time := by
      rw [hc1s, hc1e]
      omega
    have hc1chain : (acc ++ [mergeCombine cur nxt]).Chain'
        (fun a b => a.end_time ≤ b.start_time) := by
      rw [List.chain'_append] at hchain ⊢
      refine ⟨hchain.1, by simp, ?_⟩
      intro x hx y hy
      simp only [List.head?_cons, Option.mem_def, Option.some.injEq] at hy
      subst hy
      rw [hc1s]
      exact hchain.2.2 x hx cur (by simp)
    have hc1wc : wordCount (mergeCombine cur nxt).text < 2000 := by
      rw [wordCount_mergeCombine]
      omega
    obtain ⟨nw, cur1, hsplit, hw1, hwords, hheads, hses, hchains, he1, he2, hwcle⟩ :=
      splitStage mx hmx acc (mergeCombine cur nxt) hc1w hc1se hacc hc1chain hc1wc
    refine ⟨acc ++ nw, cur1, ?_, hw1, ?_, ?_, hses, hchains, ?_, ?_, ?_⟩
    · rw [mergeIter_merge_eq mn mx acc cur nxt hcase]
      exact hsplit
    · rw [hwords, pyWords_mergeCombine, ← List.append_assoc]
    · intro x y hx hy
      cases acc with
      | nil =>
        simp only [List.nil_append, List.head?_cons, Option.some.injEq] at hy
        have h1 : x.start_time = (mergeCombine cur nxt).start_time :=
          hheads x (mergeCombine cur nxt) hx (by simp)
        rw [h1, hc1s, ← hy]
      | cons a t =>
        have h1 : x.start_time = a.start_time :=
          hheads x a hx (by simp)
        simp only [List.cons_append, List.head?_cons, Option.some.injEq] at hy
        rw [h1, ← hy]
    · rw [← hc1e]; exact he1
    · rw [← hc1e]; exact he2
    · rw [← wordCount_mergeCombine]; exact hwcle
  · -- flush branch: cur is emitted, nxt becomes the accumulator
    have hchain2 : ((acc ++ [cur]) ++ [nxt]).Chain'
        (fun a b => a.end_time ≤ b.start_time) := by
      rw [List.chain'_append]
      refine ⟨hchain, by simp, ?_⟩
      intro x hx y hy
      simp only [List.head?_cons, Option.mem_def, Option.some.injEq] at hy
      subst hy
      rw [List.getLast?_concat, Option.mem_def, Option.some.injEq] at hx
      subst hx
      exact hcn
    have hacc2 : ∀ x ∈ acc ++ [cur], x.start_time ≤ x.end_time := by
      intro x hx
      rcases List.mem_append.mp hx with hx | hx
      · exact hacc x hx
      · simp only [List.mem_singleton] at hx
        subst hx
        exact hse
    have hnwc : wordCount nxt.text < 2000 := by omega
    obtain ⟨nw, cur1, hsplit, hw1, hwords, hheads, hses, hchains, he1, he2, hwcle⟩ :=
      splitStage mx hmx (acc ++ [cur]) nxt hnw hnse hacc2 hchain2 hnwc
    refine ⟨(acc ++ [cur]) ++ nw, cur1, ?_, hw1, ?_, ?_, hses, hchains,
      he1, he2, by omega⟩
    · rw [mergeIter_flush_eq mn mx acc cur nxt hcase]
      exact hsplit
    · rw [hwords, wordsConcat_snoc]
    · intro x y hx hy
      apply hheads x y hx
      exact head?_append_left (acc ++ [cur]) [nxt] y hy

theorem mergeLoop_invariant (mn mx : Nat) (hmx : mx ≠ 0) (W : Nat)
    (hW : W < 2000) :
    ∀ (rest acc : List Subtitle) (cur : Subtitle) (A : Nat),
    pyWords cur.text ≠ [] →
    (∀ e ∈ rest, pyWords e.text ≠ []) →
    (∀ e ∈ rest, e.start_time ≤ e.end_time) →
    cur.start_time ≤ cur.end_time →
    (∀ x ∈ acc, x.start_time ≤ x.end_time) →
    (acc ++ [cur]).Chain' (fun a b => a.end_time ≤ b.start_time) →
    (∀ h, rest.head? = some h → cur.end_time ≤ h.start_time) →
    rest.Chain' (fun a b => a.end_time ≤ b.start_time) →
    wordCount cur.text + totalWords rest ≤ W →
    cur.end_time ≤ A → A ≤ cur.end_time + 1 →
    ∃ acc2 cur2, mergeLoop mn mx (acc, cur) rest = some (acc2, cur2) ∧
      wordsConcat acc2 ++ pyWords cur2.text =
        wordsConcat acc ++ pyWords cur.text ++ wordsConcat rest ∧
      (∀ x y, (acc2 ++ [cur2]).head? = some x →
        (acc ++ [cur]).head? = some y → x.start_time = y.start_time) ∧
      (∀ x ∈ acc2 ++ [cur2], x.start_time ≤ x.end_time) ∧
      (acc2 ++ [cur2]).Chain' (fun a b => a.end_time ≤ b.start_time) ∧
      cur2.end_time ≤ (rest.map (fun x => x.end_time)).getLastD A ∧
      (rest.map (fun x => x.end_time)).getLastD A ≤ cur2.end_time + 1 := by
  intro rest
  induction rest with
  | nil =>
    intro acc cur A hcw _ _ hse hacc hchain _ _ _ hA1 hA2
    refine ⟨acc, cur, rfl, by simp [wordsConcat], ?_, ?_, hchain, ?_, ?_⟩
    · intro x y hx hy
      rw [hx] at hy
      rw [Option.some.injEq] at hy
      rw [hy]
    · intro x hx
      rcases List.mem_append.mp hx with hx | hx
      · exact hacc x hx
      · simp only [List.mem_singleton] at hx
        subst hx
        exact hse
    · simpa using hA1
    · simpa using hA2
  | cons nxt rest ih =>
    intro acc cur A hcw hrw hrse hse hacc hchain hhead hrchain hbud hA1 hA2
    have hnxtw : pyWords nxt.text ≠ [] := hrw nxt (List.mem_cons_self _ _)
    have hnxtse : nxt.start_time ≤ nxt.end_time :=
      hrse nxt (List.mem_cons_self _ _)
    have hcn : cur.end_time ≤ nxt.start_time := hhead nxt rfl
    have hbud2 : wordCount cur.text + wordCount nxt.text + totalWords rest ≤ W := by
      rw [totalWords_cons] at hbud
      omega
    obtain ⟨hr1, hr2⟩ := List.chain'_cons'.mp hrchain
    obtain ⟨acc1, cur1, hiter, hw1, hwords1, hheads1, hses1, hchains1,
      he1, he2, hwc1⟩ :=
      mergeIter_invariant mn mx hmx acc cur nxt hcw hnxtw hse hnxtse hcn
        hacc hchain (by omega)
    have hcur1se : cur1.start_time ≤ cur1.end_time :=
      hses1 cur1 (by simp)
    have hacc1se : ∀ x ∈ acc1, x.start_time ≤ x.end_time := by
      intro x hx
      exact hses1 x (List.mem_append.mpr (Or.inl hx))
    obtain ⟨acc2, cur2, hloop, hwords2, hheads2, hses2, hchains2, hb1, hb2⟩ :=
      ih acc1 cur1 nxt.end_time hw1
        (fun e he => hrw e (List.mem_cons_of_mem _ he))
        (fun e he => hrse e (List.mem_cons_of_mem _ he))
        hcur1se hacc1se hchains1
        (fun h hh => le_trans he1 (hr1 h hh))
        hr2 (by omega) he1 he2
    refine ⟨acc2, cur2, ?_, ?_, ?_, hses2, hchains2, ?_, ?_⟩
    · rw [mergeLoop_cons, hiter]
      exact hloop
    · rw [hwords2, hwords1]
      have : wordsConcat (nxt :: rest) = pyWords nxt.text ++ wordsConcat rest := by
        unfold wordsConcat
        simp
      rw [this]
      simp [List.append_assoc]
    · intro x y hx hy
      obtain ⟨z, hz⟩ : ∃ z, (acc1 ++ [cur1]).head? = some z := by
        cases h : (acc1 ++ [cur1]).head? with
        | none =>
          rw [List.head?_eq_none_iff] at h
          simp at h
        | some z => exact ⟨z, rfl⟩
      rw [hheads2 x z hx hz]
      exact hheads1 z y hz hy
    · rw [List.map_cons, List.getLastD_cons]
      exact hb1
    · rw [List.map_cons, List.getLastD_cons]
      exact hb2

/-! ## Claim theorems for the duration reconciler -/

theorem clipStretch_eq_max_min (f : ℚ) :
    clipStretch f = max 0.9 (min 1.1 f) := by
  unfold clipStretch
  split_ifs with h1 h2
  · rw [min_eq_left h1.le, max_eq_right (by norm_num)]
  · rw [min_eq_right (by linarith), max_eq_left h2.le]
  · push_neg at h1 h2
    rw [min_eq_right h1, max_eq_right h2]

theorem atempoChainAux_inrange (fuel : Nat) (t : ℚ) (h1 : ¬ 2 < t)
    (h2 : ¬ t < 1/2) : atempoChainAux fuel t = [t] := by
  cases fuel with
  | zero => rfl
  | succ n =>
    unfold atempoChainAux
    rw [if_neg (not_or.mpr ⟨h1, h2⟩)]

/-- C5: for every duration ratio f, the atempo chain built on the
stretch path is the single stage equal to the clipped factor, its
product is max 0.9 (min 1.1 f), and every stage lies inside the atempo
range [0.5, 2.0]. -/
theorem stretch_chain_is_clipped_factor (f : ℚ) :
    atempoChain (clipStretch f) = [clipStretch f] ∧
    (atempoChain (clipStretch f)).prod = max 0.9 (min 1.1 f) ∧
    ∀ x ∈ atempoChain (clipStretch f), 1/2 ≤ x ∧ x ≤ 2 := by
  have hb : 0.9 ≤ clipStretch f ∧ clipStretch f ≤ 1.1 := by
    unfold clipStretch
    split_ifs with h1 h2
    · norm_num
    · norm_num
    · push_neg at h1 h2
      exact ⟨h2, h1⟩
  have hch : atempoChain (clipStretch f) = [clipStretch f] := by
    unfold atempoChain
    apply atempoChainAux_inrange
    · rw [not_lt]
      linarith [hb.2]
    · rw [not_lt]
      linarith [hb.1]
  refine ⟨hch, ?_, ?_⟩
  · rw [hch, List.prod_singleton]
    exact clipStretch_eq_max_min f
  · rw [hch]
    intro x hx
    simp only [List.mem_singleton] at hx
    subst hx
    constructor
    · linarith [hb.1]
    · linarith [hb.2]

/-- C6: the reconciler takes the stream-copy path exactly when the
clipped stretch factor is within the fine threshold of 1; otherwise it
takes the stretch path. -/
theorem copy_path_iff_fine_threshold (f : ℚ) :
    (reconcilerPath f = .copied ↔ |clipStretch f - 1| ≤ 0.08) ∧
    (reconcilerPath f = .stretched ↔ 0.08 < |clipStretch f - 1|) := by
  unfold reconcilerPath
  split_ifs with h
  · constructor
    · constructor
      · intro hcon
        exact absurd hcon (by simp)
      · intro hcon
        linarith
    · simp [h]
  · rw [not_lt] at h
    constructor
    · simp [h]
    · constructor
      · intro hcon
        exact absurd hcon (by simp)
      · intro hcon
        linarith

theorem adjust_eval_subs (s0 sl : ℚ × ℚ) (rest : List (ℚ × ℚ))
    (pr : Except Unit (Option ℚ)) (ff : Except Unit Int)
    (hlast : (s0 :: rest).getLast? = some sl) :
    adjustAudioLengthFfmpeg ⟨true, true, some (s0 :: rest), pr, ff⟩ =
      (match pr with
       | Except.error _ => (false, [])
       | Except.ok none => (false, [])
       | Except.ok (some dur) =>
         if sl.2 - s0.1 = 0 then (false, []) else
           match ff with
           | Except.error _ => (false, [])
           | Except.ok _ => (true, [reconcilerPath (dur / (sl.2 - s0.1))])) := by
  unfold adjustAudioLengthFfmpeg
  dsimp only
  rw [hlast]
  simp only [List.head?_cons]
  rcases pr with a | opr
  · norm_num
  · rcases opr with _ | dur <;> norm_num

/-- C9 counterexample: with both inputs present, a parseable SRT and
probe, and an ffmpeg invocation that completes with nonzero exit status
1, the function returns True (and the stretched file is written); the
claim says every failing media-tool invocation returns False. -/
theorem adjust_true_on_failed_tool_invocation :
    adjustAudioLengthFfmpeg
        ⟨true, true, some [(0, 10)], Except.ok (some 20), Except.ok 1⟩ =
      (true, [OutputWrite.stretched]) ∧ (1 : Int) ≠ 0 := by
  constructor
  · rw [adjust_eval_subs (0, 10) (0, 10) [] (Except.ok (some 20))
      (Except.ok 1) rfl]
    dsimp only
    have hc : clipStretch ((20 : ℚ) / (((0 : ℚ), (10 : ℚ)).2 -
        ((0 : ℚ), (10 : ℚ)).1)) = 1.1 := by
      unfold clipStretch
      rw [if_pos (by norm_num)]
    have habs : |(1.1 : ℚ) - 1| = 1/10 := by
      rw [show (1.1 : ℚ) - 1 = 1/10 by norm_num]
      exact abs_of_nonneg (by norm_num)
    have hpath : reconcilerPath ((20 : ℚ) / (((0 : ℚ), (10 : ℚ)).2 -
        ((0 : ℚ), (10 : ℚ)).1)) = OutputWrite.stretched := by
      unfold reconcilerPath
      rw [hc, habs, if_pos (by norm_num)]
    rw [if_neg (by norm_num), hpath]
  · decide

/-- C9 amended: missing inputs, an unparseable SRT, an empty SRT, probe
failures and raising tool invocations all return False, with nothing
written when an input file is missing; but a media-tool invocation that
completes with a nonzero exit status is not detected: the call returns
True exactly when both inputs exist, the SRT parses nonempty, the probe
parses, the target duration is nonzero and the single invocation
completes, whatever its exit status. -/
theorem adjust_failure_modes (env : MediaEnv) :
    (env.audioExists = false → adjustAudioLengthFfmpeg env = (false, [])) ∧
    (env.srtExists = false → adjustAudioLengthFfmpeg env = (false, [])) ∧
    (env.srtSubs = none → adjustAudioLengthFfmpeg env = (false, [])) ∧
    (env.srtSubs = some [] → adjustAudioLengthFfmpeg env = (false, [])) ∧
    (env.probe = Except.error () → (adjustAudioLengthFfmpeg env).1 = false) ∧
    (env.probe = Except.ok none → (adjustAudioLengthFfmpeg env).1 = false) ∧
    (env.ffmpeg = Except.error () → (adjustAudioLengthFfmpeg env).1 = false) ∧
    ((adjustAudioLengthFfmpeg env).1 = true ↔
      env.audioExists = true ∧ env.srtExists = true ∧
        ∃ subs s0 sl dur code, env.srtSubs = some subs ∧
          subs.head? = some s0 ∧ subs.getLast? = some sl ∧
          env.probe = Except.ok (some dur) ∧ sl.2 - s0.1 ≠ 0 ∧
          env.ffmpeg = Except.ok code) := by
  obtain ⟨ae, se, ss, pr, ff⟩ := env
  cases ae with
  | false =>
    refine ⟨fun _ => rfl, ?_, ?_, ?_, ?_, ?_, ?_, ?_⟩ <;>
      simp [adjustAudioLengthFfmpeg]
  | true =>
    cases se with
    | false =>
      refine ⟨by simp, fun _ => rfl, ?_, ?_, ?_, ?_, ?_, ?_⟩ <;>
        simp [adjustAudioLengthFfmpeg]
    | true =>
      rcases ss with _ | subs
      · refine ⟨by simp, by simp, fun _ => rfl, by simp, ?_, ?_, ?_, ?_⟩ <;>
          simp [adjustAudioLengthFfmpeg]
      · rcases subs with _ | ⟨s0, rest⟩
        · refine ⟨by simp, by simp, by simp, fun _ => rfl, ?_, ?_, ?_, ?_⟩ <;>
            simp [adjustAudioLengthFfmpeg]
        · have hhead : (s0 :: rest).head? = some s0 := rfl
          obtain ⟨sl, hlast⟩ : ∃ sl, (s0 :: rest).getLast? = some sl := by
            cases h : (s0 :: rest).getLast? with
            | none => rw [List.getLast?_eq_none_iff] at h; simp at h
            | some sl => exact ⟨sl, rfl⟩
          have hval := adjust_eval_subs s0 sl rest pr ff hlast
          cases pr with
          | error a =>
            dsimp only at hval
            refine ⟨by simp, by simp, by simp, by simp, fun _ => ?_, by simp,
              fun _ => ?_, ?_⟩
            · rw [hval]
            · rw [hval]
            · constructor
              · intro hcon
                rw [hval] at hcon
                simp at hcon
              · rintro ⟨-, -, s2, s02, sl2, dur2, code2, -, -, -, hpr, -, -⟩
                exact absurd hpr (by simp)
          | ok opr =>
            cases opr with
            | none =>
              dsimp only at hval
              refine ⟨by simp, by simp, by simp, by simp, by simp,
                fun _ => ?_, fun _ => ?_, ?_⟩
              · rw [hval]
              · rw [hval]
              · constructor
                · intro hcon
                  rw [hval] at hcon
                  simp at hcon
                · rintro ⟨-, -, s2, s02, sl2, dur2, code2, -, -, -, hpr, -, -⟩
                  exact absurd hpr (by simp)
            | some dur =>
              dsimp only at hval
              by_cases htgt : sl.2 - s0.1 = 0
              · refine ⟨by simp, by simp, by simp, by simp, by simp, by simp,
                  fun _ => ?_, ?_⟩
                · rw [hval]
                  exact congrArg Prod.fst (if_pos htgt)
                · constructor
                  · intro hcon
                    rw [hval] at hcon
                    rw [if_pos htgt] at hcon
                    simp at hcon
                  · rintro ⟨-, -, s2, s02, sl2, dur2, code2, hs2, hh2, hl2,
                      -, hne2, -⟩
                    have hs2b : s2 = s0 :: rest := (Option.some.inj hs2).symm
                    subst hs2b
                    rw [hhead] at hh2
                    have hh2b : s02 = s0 := (Option.some.inj hh2).symm
                    subst hh2b
                    rw [hlast] at hl2
                    have hl2b : sl2 = sl := (Option.some.inj hl2).symm
                    subst hl2b
                    exact absurd htgt hne2
              · cases ff with
                | error a =>
                  refine ⟨by simp, by simp, by simp, by simp, by simp, by simp,
                    fun _ => ?_, ?_⟩
                  · rw [hval, if_neg htgt]
                  · constructor
                    · intro hcon
                      rw [hval, if_neg htgt] at hcon
                      simp at hcon
                    · rintro ⟨-, -, s2, s02, sl2, dur2, code2, -, -, -, -,
                        -, hff⟩
                      exact absurd hff (by simp)
                | ok code =>
                  refine ⟨by simp, by simp, by simp, by simp, by simp, by simp,
                    by simp, ?_⟩
                  constructor
                  · intro _
                    exact ⟨rfl, rfl, s0 :: rest, s0, sl, dur, code, rfl,
                      hhead, hlast, rfl, htgt, rfl⟩
                  · intro _
                    rw [hval, if_neg htgt]

/-! ## Claim theorems for the reflow engine -/

/-- A sixteen-word text, one above the default max_words. -/
def sixteenWords : List Char := "w w w w w w w w w w w w w w w w".toList

/-- C1: at the defaults min_words 4 and max_words 15, a single-entry
input of sixteen words is returned unchanged, so the returned entry
exceeds max_words: the split check sits inside the else branch of the
loop and never examines the first (here, only) accumulator. -/
theorem merge_single_long_entry_unsplit :
    mergeSubtitles [⟨1, 0, 2000, sixteenWords⟩] 4 15 =
      some [⟨1, 0, 2000, sixteenWords⟩] ∧
    15 < wordCount sixteenWords := by
  constructor
  · rfl
  · decide

/-- C2: in each loop iteration of merge_subtitles, next is merged into
current (text joined by a single space, end_time taken from next,
start_time and index kept) exactly when the combined word count fits
max_words, or current does not end in sentence-terminal punctuation
(the is_complete_sentence check), or current is below min_words; only
otherwise is current flushed and next made the new accumulator. -/
theorem merge_decision_iff (mn mx : Nat) (cur nxt : Subtitle)
    (h : pyStrip cur.text ≠ []) :
    (mergeStep mn mx cur nxt = some (mergeCombine cur nxt, none) ↔
      (wordCount cur.text + wordCount nxt.text ≤ mx ∨
        isCompleteSentence cur.text = some false ∨
        wordCount cur.text < mn)) ∧
    (mergeStep mn mx cur nxt = some (nxt, some cur) ↔
      ¬(wordCount cur.text + wordCount nxt.text ≤ mx ∨
        isCompleteSentence cur.text = some false ∨
        wordCount cur.text < mn)) ∧
    (mergeCombine cur nxt).text = cur.text ++ ' ' :: nxt.text ∧
    (mergeCombine cur nxt).start_time = cur.start_time ∧
    (mergeCombine cur nxt).end_time = nxt.end_time ∧
    (mergeCombine cur nxt).index = cur.index := by
  obtain ⟨-, h2, h3⟩ := mergeStep_spec mn mx cur nxt h
  exact ⟨h2, h3, rfl, rfl, rfl, rfl⟩

theorem merge_decision_iff_witness :
    mergeStep 4 15 ⟨1, 0, 1000, "Hello there.".toList⟩
        ⟨2, 1000, 2000, "Good.".toList⟩ =
      some (mergeCombine ⟨1, 0, 1000, "Hello there.".toList⟩
        ⟨2, 1000, 2000, "Good.".toList⟩, none) :=
  ((merge_decision_iff 4 15 ⟨1, 0, 1000, "Hello there.".toList⟩
    ⟨2, 1000, 2000, "Good.".toList⟩ (by decide)).1).mpr (Or.inl (by decide))

/-- C10: merge_subtitles never raises when every input text is nonempty
after trimming (and max_words is positive, as at the defaults): the
accumulator always keeps a nonempty trimmed text, so the last-character
check of is_complete_sentence stays in range; and for the input whose
whitespace-only first entry is followed by a sixteen-word entry, the
check is reached on an empty trimmed string and the run fails (none,
the IndexError). -/
theorem merge_total_iff_trim_nonempty :
    (∀ (subs : List Subtitle) (mn mx : Nat), mx ≠ 0 →
      (∀ e ∈ subs, pyStrip e.text ≠ []) →
      (mergeSubtitles subs mn mx).isSome = true) ∧
    mergeSubtitles
        [⟨1, 0, 1000, "   ".toList⟩, ⟨2, 1000, 2000, sixteenWords⟩]
        4 15 = none := by
  constructor
  · intro subs mn mx hmx hall
    cases subs with
    | nil => rfl
    | cons s rest =>
      have hs : pyWords s.text ≠ [] :=
        (pyStrip_ne_nil_iff_pyWords_ne_nil _).mp
          (hall s (List.mem_cons_self _ _))
      obtain ⟨acc2, cur2, hloop, -⟩ := mergeLoop_total mn mx hmx rest [] s hs
        (fun e he => (pyStrip_ne_nil_iff_pyWords_ne_nil _).mp
          (hall e (List.mem_cons_of_mem _ he)))
      unfold mergeSubtitles
      dsimp only
      rw [hloop]
      rfl
  · decide

theorem merge_total_iff_trim_nonempty_witness :
    (mergeSubtitles [⟨1, 0, 1000, "One two three.".toList⟩] 4 15).isSome =
      true :=
  merge_total_iff_trim_nonempty.1 [⟨1, 0, 1000, "One two three.".toList⟩]
    4 15 (by decide) (by decide)

theorem getLastD_map_end (d : Nat) (l : List Subtitle) (y : Subtitle)
    (hy : l.getLast? = some y) :
    (l.map (fun x => x.end_time)).getLastD d = y.end_time := by
  have h1 : (l.map (fun x => x.end_time)).getLast? = some y.end_time := by
    rw [List.getLast?_map, hy]
    rfl
  rw [List.getLastD_eq_getLast?, h1]
  rfl

/-- A fifteen-word text, the default max_words. -/
def fifteenWords : List Char := "w w w w w w w w w w w w w w w".toList

/-- C3 counterexample: two well-formed sixteen-word entries covering
[0 ms, 1000 ms] merge into a 32-word accumulator and split into three
chunks; the rounded sub-intervals end at 999 ms, so the total elapsed
time of the output (999 ms) differs from the input (1000 ms). -/
theorem merge_conservation_cex :
    mergeSubtitles
        [⟨1, 0, 500, sixteenWords⟩, ⟨2, 500, 1000, sixteenWords⟩] 4 15 =
      some [⟨1, 0, 333, fifteenWords⟩, ⟨2, 333, 666, fifteenWords⟩,
        ⟨3, 666, 999, "w w".toList⟩] ∧
    (999 : Nat) ≠ 1000 := by
  constructor
  · decide
  · decide

/-- C3 amended: for a nonempty, chronologically ordered input of
well-formed entries with trim-nonempty texts and fewer than 2000 words
in total (so no split needs 2000 chunks), the reflow conserves the word
sequence of the text fields exactly (the space-joined concatenations
agree after whitespace normalisation) and the first start time exactly;
the last end time never moves later and moves earlier by at most one
millisecond of time-precision rounding. -/
theorem merge_conservation (subs : List Subtitle) (mn mx : Nat)
    (hmx : mx ≠ 0) (hne : subs ≠ [])
    (hw : ∀ e ∈ subs, pyStrip e.text ≠ [])
    (hse : ∀ e ∈ subs, e.start_time ≤ e.end_time)
    (hchain : subs.Chain' (fun a b => a.end_time ≤ b.start_time))
    (hW : totalWords subs < 2000) :
    ∃ out, mergeSubtitles subs mn mx = some out ∧ out ≠ [] ∧
      wordsConcat out = wordsConcat subs ∧
      (∀ x y, out.head? = some x → subs.head? = some y →
        x.start_time = y.start_time) ∧
      (∀ x y, out.getLast? = some x → subs.getLast? = some y →
        x.end_time ≤ y.end_time ∧ y.end_time ≤ x.end_time + 1) := by
  cases subs with
  | nil => exact absurd rfl hne
  | cons s rest =>
    obtain ⟨h1, h2⟩ := List.chain'_cons'.mp hchain
    obtain ⟨acc2, cur2, hloop, hwords, hheads, hses, hchains, hb1, hb2⟩ :=
      mergeLoop_invariant mn mx hmx (totalWords (s :: rest)) hW rest [] s
        s.end_time
        ((pyStrip_ne_nil_iff_pyWords_ne_nil _).mp
          (hw s (List.mem_cons_self _ _)))
        (fun e he => (pyStrip_ne_nil_iff_pyWords_ne_nil _).mp
          (hw e (List.mem_cons_of_mem _ he)))
        (fun e he => hse e (List.mem_cons_of_mem _ he))
        (hse s (List.mem_cons_self _ _))
        (by simp)
        (by simp)
        h1 h2 (le_of_eq (totalWords_cons s rest).symm) le_rfl (by omega)
    refine ⟨acc2 ++ [cur2], ?_, by simp, ?_, ?_, ?_⟩
    · unfold mergeSubtitles
      dsimp only
      rw [hloop]
      rfl
    · rw [wordsConcat_snoc, hwords]
      have hcons : wordsConcat (s :: rest) =
          pyWords s.text ++ wordsConcat rest := by
        unfold wordsConcat
        simp
      rw [hcons]
      simp [wordsConcat]
    · intro x y hx hy
      rw [List.head?_cons, Option.some.injEq] at hy
      subst hy
      exact hheads x s hx rfl
    · intro x y hx hy
      rw [List.getLast?_concat, Option.some.injEq] at hx
      subst hx
      have htgt : (rest.map (fun x => x.end_time)).getLastD s.end_time =
          y.end_time := by
        cases rest with
        | nil =>
          have hy2 : s = y := by simpa using hy
          rw [← hy2]
          rfl
        | cons r rest2 =>
          have hy2 : (r :: rest2).getLast? = some y := by
            rw [List.getLast?_cons_cons] at hy
            exact hy
          exact getLastD_map_end s.end_time (r :: rest2) y hy2
      rw [htgt] at hb1 hb2
      exact ⟨hb1, by omega⟩

theorem merge_conservation_witness :
    ∃ out, mergeSubtitles [⟨1, 0, 1000, "Hello.".toList⟩] 4 15 = some out ∧
      out ≠ [] ∧
      wordsConcat out = wordsConcat [⟨1, 0, 1000, "Hello.".toList⟩] ∧
      (∀ x y, out.head? = some x →
        [Subtitle.mk 1 0 1000 "Hello.".toList].head? = some y →
        x.start_time = y.start_time) ∧
      (∀ x y, out.getLast? = some x →
        [Subtitle.mk 1 0 1000 "Hello.".toList].getLast? = some y →
        x.end_time ≤ y.end_time ∧ y.end_time ≤ x.end_time + 1) :=
  merge_conservation [⟨1, 0, 1000, "Hello.".toList⟩] 4 15 (by decide)
    (by decide) (by decide) (by decide) (by simp) (by decide)

theorem chain_start_le (l : List Subtitle)
    (hse : ∀ x ∈ l, x.start_time ≤ x.end_time)
    (hch : l.Chain' (fun a b => a.end_time ≤ b.start_time)) :
    l.Chain' (fun a b => a.start_time ≤ b.start_time) := by
  induction l with
  | nil => simp
  | cons a l ih =>
    rw [List.chain'_cons'] at hch ⊢
    refine ⟨?_, ih (fun x hx => hse x (List.mem_cons_of_mem a hx)) hch.2⟩
    intro y hy
    have h1 := hch.1 y hy
    have h2 := hse a (List.mem_cons_self a l)
    omega

/-- C8 counterexample: two strictly increasing, non-overlapping,
well-formed sixteen-word entries of one millisecond each merge and
split into three chunks whose first two rounded sub-intervals both
start at 0 ms: the output start times 0, 0, 1 are not strictly
increasing. -/
theorem merge_order_cex :
    (mergeSubtitles [⟨1, 0, 1, sixteenWords⟩, ⟨2, 1, 2, sixteenWords⟩]
        4 15).map (List.map (fun x => x.start_time)) = some [0, 0, 1] ∧
    ¬ List.Chain' (fun a b : Nat => a < b) [0, 0, 1] ∧
    List.Chain' (fun a b : Subtitle => a.start_time < b.start_time)
      [⟨1, 0, 1, sixteenWords⟩, ⟨2, 1, 2, sixteenWords⟩] ∧
    List.Chain' (fun a b : Subtitle => a.end_time ≤ b.start_time)
      [⟨1, 0, 1, sixteenWords⟩, ⟨2, 1, 2, sixteenWords⟩] := by
  refine ⟨by decide, ?_, ?_, ?_⟩
  · simp [List.chain'_cons]
  · simp [List.chain'_cons]
  · simp [List.chain'_cons]

/-- C8 amended: for a chronologically ordered input (non-overlapping,
strictly increasing starts, well-formed entries, trim-nonempty texts)
with fewer than 2000 words in total, the output is non-overlapping with
non-decreasing start times and well-formed entries — the engine never
reorders — but start times need not be strictly increasing: rounded
split sub-intervals of sub-millisecond width can repeat a start time. -/
theorem merge_order_preserved (subs : List Subtitle) (mn mx : Nat)
    (hmx : mx ≠ 0)
    (hw : ∀ e ∈ subs, pyStrip e.text ≠ [])
    (hse : ∀ e ∈ subs, e.start_time ≤ e.end_time)
    (hchain : subs.Chain' (fun a b => a.end_time ≤ b.start_time))
    (hstrict : subs.Chain' (fun a b => a.start_time < b.start_time))
    (hW : totalWords subs < 2000) :
    ∃ out, mergeSubtitles subs mn mx = some out ∧
      (∀ x ∈ out, x.start_time ≤ x.end_time) ∧
      out.Chain' (fun a b => a.end_time ≤ b.start_time) ∧
      out.Chain' (fun a b => a.start_time ≤ b.start_time) := by
  cases subs with
  | nil => exact ⟨[], rfl, by simp, by simp, by simp⟩
  | cons s rest =>
    obtain ⟨h1, h2⟩ := List.chain'_cons'.mp hchain
    obtain ⟨acc2, cur2, hloop, hwords, hheads, hses, hchains, hb1, hb2⟩ :=
      mergeLoop_invariant mn mx hmx (totalWords (s :: rest)) hW rest [] s
        s.end_time
        ((pyStrip_ne_nil_iff_pyWords_ne_nil _).mp
          (hw s (List.mem_cons_self _ _)))
        (fun e he => (pyStrip_ne_nil_iff_pyWords_ne_nil _).mp
          (hw e (List.mem_cons_of_mem _ he)))
        (fun e he => hse e (List.mem_cons_of_mem _ he))
        (hse s (List.mem_cons_self _ _))
        (by simp)
        (by simp)
        h1 h2 (le_of_eq (totalWords_cons s rest).symm) le_rfl (by omega)
    refine ⟨acc2 ++ [cur2], ?_, hses, hchains, ?_⟩
    · unfold mergeSubtitles
      dsimp only
      rw [hloop]
      rfl
    · exact chain_start_le _ hses hchains

theorem merge_order_preserved_witness :
    ∃ out, mergeSubtitles
        [⟨1, 0, 1000, "Hi there.".toList⟩, ⟨2, 1000, 2000, "Bye now.".toList⟩]
        4 15 = some out ∧
      (∀ x ∈ out, x.start_time ≤ x.end_time) ∧
      out.Chain' (fun a b => a.end_time ≤ b.start_time) ∧
      out.Chain' (fun a b => a.start_time ≤ b.start_time) :=
  merge_order_preserved
    [⟨1, 0, 1000, "Hi there.".toList⟩, ⟨2, 1000, 2000, "Bye now.".toList⟩]
    4 15 (by decide) (by decide) (by decide) (by simp [List.chain'_cons])
    (by simp [List.chain'_cons]) (by decide)

theorem chunkList_len2 (l : List α) (k : Nat) (hk : k ≠ 0)
    (h : k < l.length) : 2 ≤ (chunkList l k).length := by
  cases hch : chunkList l k with
  | nil =>
    have hfl := chunkList_flatten l k hk
    rw [hch] at hfl
    simp only [List.flatten_nil] at hfl
    rw [← hfl] at h
    simp at h
  | cons w tail =>
    cases tail with
    | nil =>
      have hfl := chunkList_flatten l k hk
      rw [hch] at hfl
      simp only [List.flatten_cons, List.flatten_nil, List.append_nil] at hfl
      have hmem := (chunkList_mem l k hk w
        (by rw [hch]; exact List.mem_cons_self _ _)).2.1
      rw [← hfl] at h
      omega
    | cons w2 tail2 =>
      simp only [List.length_cons]
      omega

/-- A thirty-one word text, splitting into chunks of 15, 15 and 1 at
the default max_words. -/
def thirtyOneWords : List Char :=
  ("w w w w w w w w w w w w w w w w w w w w w w w w w w w w w w w").toList

/-- C4 counterexample: a thirty-one word entry over [0 ms, 1000 ms]
splits into three chunks, and the three rounded sub-intervals are
(0, 333), (333, 666), (666, 999): the final sub-interval ends at
999 ms, not at the entry end time 1000 ms. -/
theorem distribute_time_end_rounding_cex :
    (splitSubtitleText thirtyOneWords 15).map List.length = some 3 ∧
    distributeTime 0 1000 3 = [(0, 333), (333, 666), (666, 999)] ∧
    (999 : Nat) ≠ 1000 := by
  refine ⟨by decide, by decide, by decide⟩

/-- C4 amended: splitting an overlong text divides its words into
consecutive chunks of at most max_words words (all but the last exactly
max_words, none empty), and distribute_time yields exactly one
sub-interval per chunk, contiguous (each end equals the next start),
chronological, starting exactly at the entry start; each sub-interval
spans exactly the rounded-to-microsecond equal share of the duration,
and the final end equals the entry end only up to time-precision
rounding: within the stated microsecond bounds, and, when there are
fewer than 2000 chunks, at most one millisecond early and never late. -/
theorem split_proportionality (text : List Char) (mx s e : Nat)
    (hmx : mx ≠ 0) (hse : s ≤ e) (hlong : mx < wordCount text) :
    ∃ chunks, splitSubtitleText text mx = some chunks ∧
      2 ≤ chunks.length ∧
      (chunks.map pyWords).flatten = pyWords text ∧
      (∀ c ∈ chunks, (pyWords c).length ≤ mx ∧ pyWords c ≠ []) ∧
      (∀ i c, i + 1 < chunks.length → chunks[i]? = some c →
        (pyWords c).length = mx) ∧
      (distributeTime s e chunks.length).length = chunks.length ∧
      (∀ p ∈ distributeTime s e chunks.length, p.1 ≤ p.2) ∧
      (distributeTime s e chunks.length).Chain' (fun p r => p.2 = r.1) ∧
      (∀ i p, (distributeTime s e chunks.length)[i]? = some p →
        p = ((1000 * s + i * rne (1000 * e - 1000 * s) chunks.length) / 1000,
          (1000 * s + (i + 1) *
            rne (1000 * e - 1000 * s) chunks.length) / 1000)) ∧
      (∀ p, (distributeTime s e chunks.length).head? = some p → p.1 = s) ∧
      (∀ p, (distributeTime s e chunks.length).getLast? = some p →
        1000 * p.2 ≤ 1000 * e + chunks.length / 2 ∧
        1000 * e ≤ 1000 * p.2 + chunks.length / 2 + 999 ∧
        (chunks.length < 2000 → p.2 ≤ e ∧ e ≤ p.2 + 1)) := by
  have hwc : mx < (pyWords text).length := hlong
  have hchmem := chunkList_mem (pyWords text) mx hmx
  refine ⟨(chunkList (pyWords text) mx).map joinSpace,
    splitSubtitleText_eq text mx hmx, ?_, ?_, ?_, ?_, ?_, ?_, ?_, ?_, ?_, ?_⟩
  · rw [List.length_map]
    exact chunkList_len2 (pyWords text) mx hmx hwc
  · have hmapw : ((chunkList (pyWords text) mx).map joinSpace).map pyWords =
        chunkList (pyWords text) mx := by
      rw [List.map_map]
      have h2 : ∀ w ∈ chunkList (pyWords text) mx,
          (pyWords ∘ joinSpace) w = id w := by
        intro w hwch
        obtain ⟨hwne, _, hsub⟩ := hchmem w hwch
        show pyWords (joinSpace w) = w
        exact pyWords_joinSpace w (fun a ha =>
          ⟨pyWords_word_ne_nil _ _ (hsub a ha),
            pyWords_chars _ _ (hsub a ha)⟩)
      rw [List.map_congr_left h2, List.map_id]
    rw [hmapw]
    exact chunkList_flatten _ _ hmx
  · intro c hc
    obtain ⟨w, hwch, hwc2⟩ := List.mem_map.mp hc
    obtain ⟨hwne, hwlen, hsub⟩ := hchmem w hwch
    have hpw : pyWords c = w := by
      rw [← hwc2]
      exact pyWords_joinSpace w (fun a ha =>
        ⟨pyWords_word_ne_nil _ _ (hsub a ha), pyWords_chars _ _ (hsub a ha)⟩)
    rw [hpw]
    exact ⟨hwlen, hwne⟩
  · intro i c hi hc
    rw [List.getElem?_map] at hc
    cases hw : (chunkList (pyWords text) mx)[i]? with
    | none => rw [hw] at hc; simp at hc
    | some w =>
      rw [hw] at hc
      simp only [Option.map_some', Option.some.injEq] at hc
      obtain ⟨hwne, _, hsub⟩ := hchmem w (List.getElem?_mem hw)
      have hpw : pyWords c = w := by
        rw [← hc]
        exact pyWords_joinSpace w (fun a ha =>
          ⟨pyWords_word_ne_nil _ _ (hsub a ha), pyWords_chars _ _ (hsub a ha)⟩)
      rw [hpw]
      rw [List.length_map] at hi
      exact chunkList_full (pyWords text) mx hmx i w hi hw
  · exact distributeTime_length _ _ _
  · exact distributeTime_mem_le _ _ _
  · exact distributeTime_chain _ _ _
  · intro i p hp
    unfold distributeTime at hp
    rw [List.getElem?_map] at hp
    cases hi : (List.range ((chunkList (pyWords text) mx).map joinSpace).length)[i]? with
    | none => rw [hi] at hp; simp at hp
    | some j =>
      rw [hi] at hp
      have hj : j = i := by
        by_cases hlt : i <
            ((chunkList (pyWords text) mx).map joinSpace).length
        · rw [List.getElem?_range hlt] at hi
          exact (Option.some.inj hi).symm
        · rw [List.getElem?_eq_none
            (by rw [List.length_range]; omega)] at hi
          simp at hi
      subst hj
      simp only [Option.map_some', Option.some.injEq] at hp
      exact hp.symm
  · exact distributeTime_head _ _ _ (by
      have := chunkList_len2 (pyWords text) mx hmx hwc
      rw [List.length_map]
      omega)
  · intro p hp
    have hmne : ((chunkList (pyWords text) mx).map joinSpace).length ≠ 0 := by
      have := chunkList_len2 (pyWords text) mx hmx hwc
      rw [List.length_map]
      omega
    have hend := distributeTime_last s e _ hmne p hp
    have hb := rne_bounds (1000 * e - 1000 * s)
      ((chunkList (pyWords text) mx).map joinSpace).length hmne
    generalize hP : ((chunkList (pyWords text) mx).map joinSpace).length *
      rne (1000 * e - 1000 * s)
        ((chunkList (pyWords text) mx).map joinSpace).length = P at hb hend
    refine ⟨?_, ?_, ?_⟩ <;> [skip; skip; intro hsm] <;> omega

theorem split_proportionality_witness :
    ∃ chunks, splitSubtitleText sixteenWords 15 = some chunks ∧
      2 ≤ chunks.length ∧
      (chunks.map pyWords).flatten = pyWords sixteenWords ∧
      (∀ c ∈ chunks, (pyWords c).length ≤ 15 ∧ pyWords c ≠ []) ∧
      (∀ i c, i + 1 < chunks.length → chunks[i]? = some c →
        (pyWords c).length = 15) ∧
      (distributeTime 0 2000 chunks.length).length = chunks.length ∧
      (∀ p ∈ distributeTime 0 2000 chunks.length, p.1 ≤ p.2) ∧
      (distributeTime 0 2000 chunks.length).Chain' (fun p r => p.2 = r.1) ∧
      (∀ i p, (distributeTime 0 2000 chunks.length)[i]? = some p →
        p = ((1000 * 0 + i * rne (1000 * 2000 - 1000 * 0) chunks.length) / 1000,
          (1000 * 0 + (i + 1) *
            rne (1000 * 2000 - 1000 * 0) chunks.length) / 1000)) ∧
      (∀ p, (distributeTime 0 2000 chunks.length).head? = some p → p.1 = 0) ∧
      (∀ p, (distributeTime 0 2000 chunks.length).getLast? = some p →
        1000 * p.2 ≤ 1000 * 2000 + chunks.length / 2 ∧
        1000 * 2000 ≤ 1000 * p.2 + chunks.length / 2 + 999 ∧
        (chunks.length < 2000 → p.2 ≤ 2000 ∧ 2000 ≤ p.2 + 1)) :=
  split_proportionality sixteenWords 15 0 2000 (by decide) (by decide)
    (by decide)

theorem stretch_chain_is_clipped_factor_witness :
    atempoChain (clipStretch 2) = [clipStretch 2] ∧
    (atempoChain (clipStretch 2)).prod = max 0.9 (min 1.1 2) ∧
    (∀ x ∈ atempoChain (clipStretch 2), 1/2 ≤ x ∧ x ≤ 2) :=
  stretch_chain_is_clipped_factor 2

theorem copy_path_iff_fine_threshold_witness :
    (reconcilerPath 1 = OutputWrite.copied ↔ |clipStretch 1 - 1| ≤ 0.08) ∧
    (reconcilerPath 1 = OutputWrite.stretched ↔ 0.08 < |clipStretch 1 - 1|) :=
  copy_path_iff_fine_threshold 1

theorem adjust_failure_modes_witness :
    adjustAudioLengthFfmpeg
        ⟨false, true, none, Except.error (), Except.error ()⟩ = (false, []) :=
  (adjust_failure_modes
    ⟨false, true, none, Except.error (), Except.error ()⟩).1 rfl

/-! ## Round trip of the timeline store: integer lines -/

theorem digitChar_digit (d : Nat) : isDigitChar (digitChar d) = true := by
  unfold digitChar
  split_ifs <;> decide

theorem digitChar_val (d : Nat) (h : d < 10) :
    (digitChar d).toNat - 48 = d := by
  unfold digitChar
  split_ifs with h0 h1 h2 h3 h4 h5 h6 h7 h8
  · subst h0; decide
  · subst h1; decide
  · subst h2; decide
  · subst h3; decide
  · subst h4; decide
  · subst h5; decide
  · subst h6; decide
  · subst h7; decide
  · subst h8; decide
  · have hd : d = 9 := by omega
    subst hd; decide

theorem digit_not_special (c : Char) (h : isDigitChar c = true) :
    isPySpace c = false ∧ c ≠ '\n' ∧ c ≠ ' ' ∧ c ≠ '+' ∧ c ≠ '-' := by
  have hb : 48 ≤ c.toNat ∧ c.toNat ≤ 57 := by
    simpa [isDigitChar, Bool.and_eq_true, decide_eq_true_eq] using h
  have hne : ∀ d : Char, c.toNat ≠ d.toNat → c ≠ d := by
    intro d hd hcd
    exact hd (congrArg Char.toNat hcd)
  have e1 : c ≠ ' ' := hne ' ' (by
    simp only [show (' ').toNat = 32 from rfl]; omega)
  have e2 : c ≠ '\t' := hne '\t' (by
    simp only [show ('\t').toNat = 9 from rfl]; omega)
  have e3 : c ≠ '\n' := hne '\n' (by
    simp only [show ('\n').toNat = 10 from rfl]; omega)
  have e4 : c ≠ '\r' := hne '\r' (by
    simp only [show ('\r').toNat = 13 from rfl]; omega)
  have e5 : c ≠ Char.ofNat 11 := hne (Char.ofNat 11) (by
    simp only [show (Char.ofNat 11).toNat = 11 from rfl]; omega)
  have e6 : c ≠ Char.ofNat 12 := hne (Char.ofNat 12) (by
    simp only [show (Char.ofNat 12).toNat = 12 from rfl]; omega)
  refine ⟨?_, e3, e1, hne '+' (by
    simp only [show ('+').toNat = 43 from rfl]; omega),
    hne '-' (by simp only [show ('-').toNat = 45 from rfl]; omega)⟩
  unfold isPySpace
  simp [e1, e2, e3, e4, e5, e6]

theorem natDigitsGo_digits : ∀ (fuel n : Nat),
    ∀ c ∈ natDigitsGo fuel n, isDigitChar c = true := by
  intro fuel
  induction fuel with
  | zero =>
    intro n c hc
    simp only [natDigitsGo, List.mem_singleton] at hc
    subst hc
    exact digitChar_digit n
  | succ fuel ih =>
    intro n c hc
    simp only [natDigitsGo] at hc
    split at hc
    · simp only [List.mem_singleton] at hc
      subst hc
      exact digitChar_digit n
    · rcases List.mem_append.mp hc with hc | hc
      · exact ih (n / 10) c hc
      · simp only [List.mem_singleton] at hc
        subst hc
        exact digitChar_digit (n % 10)

theorem natDigits_digits (n : Nat) :
    ∀ c ∈ natDigits n, isDigitChar c = true :=
  natDigitsGo_digits n n

theorem natDigitsGo_ne_nil (fuel n : Nat) : natDigitsGo fuel n ≠ [] := by
  cases fuel with
  | zero => simp [natDigitsGo]
  | succ fuel =>
    simp only [natDigitsGo]
    split
    · simp
    · simp

theorem parseNatAux_cons (c : Char) (cs : List Char) (acc : Nat) :
    parseNatAux (c :: cs) acc =
      if isDigitChar c = true then
        parseNatAux cs (acc * 10 + (c.toNat - 48))
      else none := rfl

theorem parseNatAux_append (a b : List Char) (acc : Nat) :
    parseNatAux (a ++ b) acc =
      match parseNatAux a acc with
      | none => none
      | some acc2 => parseNatAux b acc2 := by
  induction a generalizing acc with
  | nil => rfl
  | cons c cs ih =>
    by_cases h : isDigitChar c = true
    · have h1 : parseNatAux ((c :: cs) ++ b) acc =
          parseNatAux (cs ++ b) (acc * 10 + (c.toNat - 48)) := by
        show parseNatAux (c :: (cs ++ b)) acc = _
        rw [parseNatAux_cons, if_pos h]
      have h2 : parseNatAux (c :: cs) acc =
          parseNatAux cs (acc * 10 + (c.toNat - 48)) := by
        rw [parseNatAux_cons, if_pos h]
      rw [h1, h2, ih]
    · have h1 : parseNatAux ((c :: cs) ++ b) acc = none := by
        show parseNatAux (c :: (cs ++ b)) acc = _
        rw [parseNatAux_cons, if_neg h]
      have h2 : parseNatAux (c :: cs) acc = none := by
        rw [parseNatAux_cons, if_neg h]
      rw [h1, h2]

theorem parseNatAux_natDigitsGo : ∀ (fuel n acc : Nat), n ≤ fuel →
    parseNatAux (natDigitsGo fuel n) acc =
      some (acc * 10 ^ (natDigitsGo fuel n).length + n) := by
  intro fuel
  induction fuel with
  | zero =>
    intro n acc hn
    have h0 : n = 0 := Nat.le_zero.mp hn
    subst h0
    simp only [natDigitsGo]
    rw [parseNatAux_cons, if_pos (digitChar_digit 0),
      digitChar_val 0 (by omega)]
    simp [parseNatAux]
  | succ fuel ih =>
    intro n acc hn
    simp only [natDigitsGo]
    split_ifs with h
    · rw [parseNatAux_cons, if_pos (digitChar_digit n), digitChar_val n h]
      simp [parseNatAux]
    · rw [parseNatAux_append]
      have hrec : n / 10 ≤ fuel := by
        have := Nat.div_lt_self (by omega : 0 < n) (by omega : 1 < 10)
        omega
      rw [ih (n / 10) acc hrec]
      show parseNatAux [digitChar (n % 10)]
          (acc * 10 ^ (natDigitsGo fuel (n / 10)).length + n / 10) = _
      rw [parseNatAux_cons, if_pos (digitChar_digit (n % 10)),
        digitChar_val (n % 10) (Nat.mod_lt n (by omega))]
      simp only [parseNatAux]
      have hlen : (natDigitsGo fuel (n / 10) ++ [digitChar (n % 10)]).length =
          (natDigitsGo fuel (n / 10)).length + 1 := by
        simp
      rw [hlen]
      congr 1
      have hmod := Nat.div_add_mod n 10
      have hpow : 10 ^ ((natDigitsGo fuel (n / 10)).length + 1) =
          10 ^ (natDigitsGo fuel (n / 10)).length * 10 := pow_succ 10 _
      rw [hpow]
      generalize (10 : Nat) ^ (natDigitsGo fuel (n / 10)).length = X
      have : (acc * X + n / 10) * 10 + n % 10 =
          acc * (X * 10) + (10 * (n / 10) + n % 10) := by ring
      rw [this]
      omega

theorem parseNatChars_natDigits (n : Nat) :
    parseNatChars (natDigits n) = some n := by
  unfold natDigits
  cases hd : natDigitsGo n n with
  | nil => exact absurd hd (natDigitsGo_ne_nil n n)
  | cons c cs =>
    have h1 : parseNatChars (c :: cs) = parseNatAux (c :: cs) 0 := rfl
    rw [h1, ← hd, parseNatAux_natDigitsGo n n 0 le_rfl]
    simp

theorem pyStrip_eq_self (l : List Char) (h : ∀ c ∈ l, isPySpace c = false) :
    pyStrip l = l := by
  unfold pyStrip
  have h1 : l.dropWhile isPySpace = l := by
    cases l with
    | nil => rfl
    | cons c cs =>
      rw [List.dropWhile_cons_of_neg]
      simp [h c (List.mem_cons_self c cs)]
  rw [h1]
  have h2 : l.reverse.dropWhile isPySpace = l.reverse := by
    cases hr : l.reverse with
    | nil => rfl
    | cons c cs =>
      rw [List.dropWhile_cons_of_neg]
      have hc : c ∈ l := by
        rw [← List.mem_reverse, hr]
        exact List.mem_cons_self c cs
      simp [h c hc]
  rw [h2, List.reverse_reverse]

theorem pyInt_natDigits (n : Nat) : pyInt (natDigits n) = some (n : Int) := by
  unfold pyInt
  have hstrip : pyStrip (natDigits n) = natDigits n :=
    pyStrip_eq_self _ (fun c hc => (digit_not_special c
      (natDigits_digits n c hc)).1)
  rw [hstrip]
  cases hd : natDigits n with
  | nil => exact absurd hd (natDigitsGo_ne_nil n n)
  | cons c cs =>
    have hcd : isDigitChar c = true := by
      apply natDigits_digits n c
      rw [hd]
      exact List.mem_cons_self c cs
    obtain ⟨-, -, -, hplus, hminus⟩ := digit_not_special c hcd
    have hp := parseNatChars_natDigits n
    rw [hd] at hp
    split
    · next ds heq =>
      rw [List.cons.injEq] at heq
      exact absurd heq.1 hplus
    · next ds heq =>
      rw [List.cons.injEq] at heq
      exact absurd heq.1 hminus
    · rw [hp]
      rfl

/-! ## Round-trip machinery for the timeline store -/

theorem splitCharAux_cons (sep c : Char) (rest acc : List Char) :
    splitCharAux sep (c :: rest) acc =
      if c = sep then acc.reverse :: splitCharAux sep rest []
      else splitCharAux sep rest (c :: acc) := rfl

theorem splitCharAux_no_sep (sep : Char) :
    ∀ (t acc : List Char), (∀ c ∈ t, c ≠ sep) →
      splitCharAux sep t acc = [acc.reverse ++ t] := by
  intro t
  induction t with
  | nil => intro acc _; simp [splitCharAux]
  | cons c rest ih =>
    intro acc h
    have hc : c ≠ sep := h c (List.mem_cons_self c rest)
    rw [splitCharAux_cons, if_neg hc,
      ih (c :: acc) (fun d hd => h d (List.mem_cons_of_mem c hd))]
    simp

theorem splitCharAux_sep (sep : Char) :
    ∀ (a rest acc : List Char), (∀ c ∈ a, c ≠ sep) →
      splitCharAux sep (a ++ sep :: rest) acc =
        (acc.reverse ++ a) :: splitCharAux sep rest [] := by
  intro a
  induction a with
  | nil =>
    intro rest acc _
    rw [List.nil_append, splitCharAux_cons, if_pos rfl, List.append_nil]
  | cons c a' ih =>
    intro rest acc h
    have hc : c ≠ sep := h c (List.mem_cons_self c a')
    rw [List.cons_append, splitCharAux_cons, if_neg hc,
      ih rest (c :: acc) (fun d hd => h d (List.mem_cons_of_mem c hd))]
    simp

theorem splitChar_core (idx timing text : List Char)
    (h1 : ∀ c ∈ idx, c ≠ '\n') (h2 : ∀ c ∈ timing, c ≠ '\n')
    (h3 : ∀ c ∈ text, c ≠ '\n') :
    splitChar '\n' (idx ++ '\n' :: (timing ++ '\n' :: text)) =
      [idx, timing, text] := by
  unfold splitChar
  rw [splitCharAux_sep '\n' idx _ [] h1,
    splitCharAux_sep '\n' timing _ [] h2,
    splitCharAux_no_sep '\n' text [] h3]
  simp

theorem splitArrowGo_no_space :
    ∀ (t : List Char) (fuel : Nat) (acc : List Char),
      (∀ c ∈ t, c ≠ ' ') → splitArrowGo fuel t acc = [acc.reverse ++ t] := by
  intro t
  induction t with
  | nil => intro fuel acc _; cases fuel <;> simp [splitArrowGo]
  | cons c rest ih =>
    intro fuel acc h
    have hc : c ≠ ' ' := h c (List.mem_cons_self c rest)
    cases fuel with
    | zero => rfl
    | succ fuel =>
      show (if c = ' ' ∧ rest.take 4 = ['-', '-', '>', ' ']
        then acc.reverse :: splitArrowGo fuel (rest.drop 4) []
        else splitArrowGo fuel rest (c :: acc)) = _
      rw [if_neg (fun hcon => hc hcon.1),
        ih fuel (c :: acc) (fun d hd => h d (List.mem_cons_of_mem c hd))]
      simp

theorem splitArrowGo_steps :
    ∀ (s : List Char) (fuel : Nat) (t acc : List Char),
      (∀ c ∈ s, c ≠ ' ') →
      splitArrowGo (s.length + fuel) (s ++ t) acc =
        splitArrowGo fuel t (s.reverse ++ acc) := by
  intro s
  induction s with
  | nil => intro fuel t acc _; simp
  | cons c s' ih =>
    intro fuel t acc h
    have hc : c ≠ ' ' := h c (List.mem_cons_self c s')
    have hl : (c :: s').length + fuel = (s'.length + fuel) + 1 := by
      simp only [List.length_cons]; omega
    rw [hl, List.cons_append]
    show (if c = ' ' ∧ (s' ++ t).take 4 = ['-', '-', '>', ' ']
      then acc.reverse :: splitArrowGo (s'.length + fuel) ((s' ++ t).drop 4) []
      else splitArrowGo (s'.length + fuel) (s' ++ t) (c :: acc)) = _
    rw [if_neg (fun hcon => hc hcon.1),
      ih fuel t (c :: acc) (fun d hd => h d (List.mem_cons_of_mem c hd))]
    simp

theorem splitArrowGo_succ (fuel : Nat) (c : Char) (rest acc : List Char) :
    splitArrowGo (fuel + 1) (c :: rest) acc =
      if c = ' ' ∧ rest.take 4 = ['-', '-', '>', ' ']
      then acc.reverse :: splitArrowGo fuel (rest.drop 4) []
      else splitArrowGo fuel rest (c :: acc) := rfl

theorem splitArrow_pair (s e : List Char)
    (hs : ∀ c ∈ s, c ≠ ' ') (he : ∀ c ∈ e, c ≠ ' ') :
    splitArrow (s ++ arrowSep ++ e) = [s, e] := by
  unfold splitArrow
  have hlen : (s ++ arrowSep ++ e).length = s.length + (e.length + 5) := by
    simp [arrowSep]
  rw [hlen, List.append_assoc,
    splitArrowGo_steps s (e.length + 5) (arrowSep ++ e) [] hs]
  have h5 : e.length + 5 = (e.length + 4) + 1 := rfl
  have harr : arrowSep ++ e = ' ' :: (['-', '-', '>', ' '] ++ e) := rfl
  rw [h5, harr, splitArrowGo_succ, if_pos ⟨rfl, rfl⟩,
    show (['-', '-', '>', ' '] ++ e).drop 4 = e from rfl,
    splitArrowGo_no_space e (e.length + 4) [] he]
  simp

theorem timestamp_char_classes (c : Char)
    (h : isDigitChar c = true ∨ c = ':' ∨ c = '.') :
    c ≠ '\n' ∧ c ≠ ' ' ∧ isPySpace c = false := by
  rcases h with h | h | h
  · obtain ⟨hsp, hn, hs, -, -⟩ := digit_not_special c h
    exact ⟨hn, hs, hsp⟩
  · subst h; exact ⟨by decide, by decide, by decide⟩
  · subst h; exact ⟨by decide, by decide, by decide⟩

theorem validTimestamp_chars (ts : List Char) (h : validTimestamp ts = true) :
    ∀ c ∈ ts, isDigitChar c = true ∨ c = ':' ∨ c = '.' := by
  cases ts with
  | nil => exact absurd h (by decide)
  | cons a1 t =>
  cases t with
  | nil => exact Bool.noConfusion h
  | cons a2 t =>
  cases t with
  | nil => exact Bool.noConfusion h
  | cons a3 t =>
  cases t with
  | nil => exact Bool.noConfusion h
  | cons a4 t =>
  cases t with
  | nil => exact Bool.noConfusion h
  | cons a5 t =>
  cases t with
  | nil => exact Bool.noConfusion h
  | cons a6 t =>
  cases t with
  | nil => exact Bool.noConfusion h
  | cons a7 t =>
  cases t with
  | nil => exact Bool.noConfusion h
  | cons a8 t =>
  cases t with
  | nil => exact Bool.noConfusion h
  | cons a9 t =>
  cases t with
  | nil => exact Bool.noConfusion h
  | cons a10 t =>
  cases t with
  | nil => exact Bool.noConfusion h
  | cons a11 t =>
  cases t with
  | nil => exact Bool.noConfusion h
  | cons a12 t =>
  cases t with
  | cons a13 t => exact Bool.noConfusion h
  | nil =>
    have h' : (isDigitChar a1 && isDigitChar a2 && (a3 == ':') &&
        isDigitChar a4 && isDigitChar a5 && (a6 == ':') &&
        isDigitChar a7 && isDigitChar a8 && (a9 == '.') &&
        isDigitChar a10 && isDigitChar a11 && isDigitChar a12) = true := h
    simp only [Bool.and_eq_true, beq_iff_eq] at h'
    obtain ⟨⟨⟨⟨⟨⟨⟨⟨⟨⟨⟨d1, d2⟩, e1⟩, d4⟩, d5⟩, e2⟩, d7⟩, d8⟩, e3⟩,
      d10⟩, d11⟩, d12⟩ := h'
    intro c hc
    simp only [List.mem_cons, List.not_mem_nil, or_false] at hc
    rcases hc with rfl | rfl | rfl | rfl | rfl | rfl | rfl | rfl | rfl |
      rfl | rfl | rfl
    · exact Or.inl d1
    · exact Or.inl d2
    · exact Or.inr (Or.inl e1)
    · exact Or.inl d4
    · exact Or.inl d5
    · exact Or.inr (Or.inl e2)
    · exact Or.inl d7
    · exact Or.inl d8
    · exact Or.inr (Or.inr e3)
    · exact Or.inl d10
    · exact Or.inl d11
    · exact Or.inl d12

theorem validTimestamp_ne_nil (ts : List Char)
    (h : validTimestamp ts = true) : ts ≠ [] := by
  intro hcon
  subst hcon
  exact absurd h (by decide)

/-- Absence of a blank-line separator between two adjacent characters. -/
def nonNN (a b : Char) : Prop := ¬(a = '\n' ∧ b = '\n')

theorem splitNNAux_cons2 (c c2 : Char) (rest acc : List Char) :
    splitNNAux (c :: c2 :: rest) acc =
      if c = '\n' ∧ c2 = '\n' then acc.reverse :: splitNNAux rest []
      else splitNNAux (c2 :: rest) (c :: acc) := rfl

theorem splitNNAux_no_sep :
    ∀ (t acc : List Char), List.Chain' nonNN t →
      splitNNAux t acc = [acc.reverse ++ t] := by
  intro t
  induction t with
  | nil => intro acc _; simp [splitNNAux]
  | cons c rest ih =>
    intro acc hch
    cases rest with
    | nil => simp [splitNNAux]
    | cons c2 rest' =>
      rw [List.chain'_cons] at hch
      rw [splitNNAux_cons2, if_neg hch.1, ih (c :: acc) hch.2]
      simp

theorem splitNNAux_sep :
    ∀ (a rest acc : List Char), List.Chain' nonNN a →
      a.getLast? ≠ some '\n' →
      splitNNAux (a ++ '\n' :: '\n' :: rest) acc =
        (acc.reverse ++ a) :: splitNNAux rest [] := by
  intro a
  induction a with
  | nil =>
    intro rest acc _ _
    rw [List.nil_append, splitNNAux_cons2, if_pos ⟨rfl, rfl⟩,
      List.append_nil]
  | cons c a' ih =>
    intro rest acc hch hlast
    cases a' with
    | nil =>
      have hc : c ≠ '\n' := fun hcon => hlast (by rw [hcon]; rfl)
      rw [List.cons_append, List.nil_append, splitNNAux_cons2,
        if_neg (fun hcon => hc hcon.1), splitNNAux_cons2,
        if_pos ⟨rfl, rfl⟩]
      simp
    | cons c2 a'' =>
      rw [List.chain'_cons] at hch
      rw [List.cons_append, List.cons_append, splitNNAux_cons2,
        if_neg hch.1, ← List.cons_append,
        ih rest (c :: acc) hch.2
          (by rw [List.getLast?_cons_cons] at hlast; exact hlast)]
      simp

theorem chain'_nonNN_left (A B : List Char) (hA : ∀ c ∈ A, c ≠ '\n')
    (hB : List.Chain' nonNN B) : List.Chain' nonNN (A ++ B) := by
  induction A with
  | nil => simpa
  | cons c A' ih =>
    rw [List.cons_append, List.chain'_cons']
    refine ⟨fun b _ => fun hcon => hA c (List.mem_cons_self c A') hcon.1,
      ih (fun d hd => hA d (List.mem_cons_of_mem c hd))⟩

theorem chain'_nonNN_of_nf (C : List Char) (h : ∀ c ∈ C, c ≠ '\n') :
    List.Chain' nonNN C := by
  have := chain'_nonNN_left C [] h List.chain'_nil
  simpa using this

theorem chain'_nonNN_nl (B : List Char) (hB : List.Chain' nonNN B)
    (hh : ∀ c, B.head? = some c → c ≠ '\n') :
    List.Chain' nonNN ('\n' :: B) := by
  rw [List.chain'_cons']
  exact ⟨fun b hb hcon => hh b hb hcon.2, hB⟩

theorem mem_of_getLast? (l : List Char) (c : Char)
    (h : l.getLast? = some c) : c ∈ l := by
  rw [← List.head?_reverse] at h
  rw [← List.mem_reverse]
  cases hr : l.reverse with
  | nil => rw [hr] at h; exact absurd h (by simp)
  | cons a t =>
    rw [hr] at h
    simp only [List.head?_cons, Option.some.injEq] at h
    rw [← h]
    exact List.mem_cons_self a t

theorem getLast?_append_right (A B : List Char) (hB : B ≠ []) :
    (A ++ B).getLast? = B.getLast? := by
  rw [← List.head?_reverse, ← List.head?_reverse, List.reverse_append]
  cases hr : B.reverse with
  | nil => exact absurd (by simpa using hr) hB
  | cons a t =>
    rw [List.cons_append]
    rfl

/-- Well-formedness of one stored entry: canonical timestamps, non-empty
single-line text whose final character is not whitespace (the last point
is what content.strip() in load_srt would otherwise erase). -/
def wfEntry (e : SrtEntry) : Bool :=
  validTimestamp e.start_time && validTimestamp e.end_time &&
    !e.text.isEmpty && e.text.all (fun c => c != '\n') &&
    !isPySpace (e.text.getLastD ' ')

theorem wfEntry_spec (e : SrtEntry) (h : wfEntry e = true) :
    validTimestamp e.start_time = true ∧ validTimestamp e.end_time = true ∧
    e.text ≠ [] ∧ (∀ c ∈ e.text, c ≠ '\n') ∧
    (∀ c, e.text.getLast? = some c → isPySpace c = false) := by
  unfold wfEntry at h
  simp only [Bool.and_eq_true, Bool.not_eq_true', List.all_eq_true,
    bne_iff_ne, ne_eq] at h
  obtain ⟨⟨⟨⟨h1, h2⟩, h3⟩, h4⟩, h5⟩ := h
  have h3' : e.text ≠ [] := by
    intro hcon
    rw [hcon] at h3
    exact absurd h3 (by decide)
  refine ⟨h1, h2, h3', fun c hc => h4 c hc, fun c hc => ?_⟩
  rw [List.getLastD_eq_getLast?, hc] at h5
  exact h5

/-- The block body save_srt writes for position i, without the trailing
blank-line separator. -/
def srtCore (i : Nat) (e : SrtEntry) : List Char :=
  natDigits i ++
    '\n' :: ((e.start_time ++ arrowSep ++ e.end_time) ++ '\n' :: e.text)

theorem srtBlock_eq (i : Nat) (e : SrtEntry) :
    srtBlock i e = srtCore i e ++ ['\n', '\n'] := by
  unfold srtBlock srtCore
  simp

/-- save_srt unrolled from a given 1-based position. -/
def saveFrom : Nat → List SrtEntry → List Char
  | _, [] => []
  | i, e :: rest => srtBlock i e ++ saveFrom (i + 1) rest

theorem saveFrom_shift : ∀ (subs : List SrtEntry) (k : Nat),
    ((subs.mapIdx (fun j e => srtBlock (j + 1 + k) e)).flatten) =
      saveFrom (k + 1) subs := by
  intro subs
  induction subs with
  | nil => intro k; rfl
  | cons e rest ih =>
    intro k
    rw [List.mapIdx_cons, List.flatten_cons]
    have hf : (fun j x => srtBlock (j + 1 + 1 + k) x) =
        (fun j x => srtBlock (j + 1 + (k + 1)) x) := by
      funext j x
      have harith : j + 1 + 1 + k = j + 1 + (k + 1) := by omega
      rw [harith]
    show srtBlock (0 + 1 + k) e ++
      (rest.mapIdx fun j x => srtBlock (j + 1 + 1 + k) x).flatten =
        srtBlock (k + 1) e ++ saveFrom (k + 1 + 1) rest
    rw [hf, ih (k + 1)]
    have h01 : 0 + 1 + k = k + 1 := by omega
    rw [h01]

theorem saveSrt_eq_saveFrom (subs : List SrtEntry) :
    saveSrt subs = saveFrom 1 subs :=
  saveFrom_shift subs 0

/-- The concatenation of the blocks of consecutive entries, separated by
(but not terminated with) blank lines. -/
def coresCat : Nat → List SrtEntry → List Char
  | _, [] => []
  | i, [e] => srtCore i e
  | i, e :: rest => srtCore i e ++ '\n' :: '\n' :: coresCat (i + 1) rest

theorem saveFrom_eq_coresCat : ∀ (subs : List SrtEntry) (i : Nat),
    subs ≠ [] → saveFrom i subs = coresCat i subs ++ ['\n', '\n'] := by
  intro subs
  induction subs with
  | nil => intro i h; exact absurd rfl h
  | cons e rest ih =>
    intro i _
    cases rest with
    | nil =>
      show srtBlock i e ++ [] = srtCore i e ++ ['\n', '\n']
      rw [List.append_nil, srtBlock_eq]
    | cons e2 rest' =>
      show srtBlock i e ++ saveFrom (i + 1) (e2 :: rest') =
        (srtCore i e ++ '\n' :: '\n' :: coresCat (i + 1) (e2 :: rest')) ++
          ['\n', '\n']
      rw [ih (i + 1) (by simp), srtBlock_eq]
      simp

/-- The renumbered copy of a sequence from a given 1-based position: what
the round trip through save_srt and load_srt produces. -/
def renumber : Nat → List SrtEntry → List SrtEntry
  | _, [] => []
  | i, e :: rest =>
    ⟨(i : Int), e.start_time, e.end_time, e.text⟩ :: renumber (i + 1) rest

theorem head?_of_ne_nil (l : List Char) (h : l ≠ []) :
    ∃ c, l.head? = some c ∧ c ∈ l := by
  cases l with
  | nil => exact absurd rfl h
  | cons a t => exact ⟨a, rfl, List.mem_cons_self a t⟩

theorem srtCore_chain (i : Nat) (e : SrtEntry) (hw : wfEntry e = true) :
    List.Chain' nonNN (srtCore i e) := by
  obtain ⟨hs, he, htne, hnl, -⟩ := wfEntry_spec e hw
  unfold srtCore
  apply chain'_nonNN_left
  · intro c hc
    exact (digit_not_special c (natDigits_digits i c hc)).2.1
  apply chain'_nonNN_nl
  · apply chain'_nonNN_left
    · intro c hc
      rcases List.mem_append.mp hc with hc | hc
      · rcases List.mem_append.mp hc with hc | hc
        · exact (timestamp_char_classes c
            (validTimestamp_chars _ hs c hc)).1
        · simp only [arrowSep, List.mem_cons, List.not_mem_nil,
            or_false] at hc
          rcases hc with rfl | rfl | rfl | rfl | rfl <;> decide
      · exact (timestamp_char_classes c
          (validTimestamp_chars _ he c hc)).1
    · apply chain'_nonNN_nl
      · exact chain'_nonNN_of_nf e.text hnl
      · intro c hc
        obtain ⟨c', hc', hm⟩ := head?_of_ne_nil e.text htne
        rw [hc'] at hc
        rw [Option.some.inj hc] at hm
        exact hnl c hm
  · intro c hc
    obtain ⟨c', hc', hm⟩ := head?_of_ne_nil e.start_time
      (validTimestamp_ne_nil _ hs)
    rw [head?_append_left _ _ c'
      (head?_append_left _ _ c' (head?_append_left _ _ c' hc'))] at hc
    rw [← Option.some.inj hc]
    exact (timestamp_char_classes c'
      (validTimestamp_chars _ hs c' hm)).1

theorem srtCore_getLast (i : Nat) (e : SrtEntry) (htne : e.text ≠ []) :
    (srtCore i e).getLast? = e.text.getLast? := by
  unfold srtCore
  rw [getLast?_append_right _ _ (by simp), ← List.cons_append,
    getLast?_append_right _ _ (by simp),
    show ('\n' :: e.text) = ['\n'] ++ e.text from rfl,
    getLast?_append_right _ _ htne]

theorem srtCore_last_not_space (i : Nat) (e : SrtEntry)
    (hw : wfEntry e = true) :
    ∀ c, (srtCore i e).getLast? = some c → isPySpace c = false := by
  obtain ⟨-, -, htne, -, h5⟩ := wfEntry_spec e hw
  intro c hc
  rw [srtCore_getLast i e htne] at hc
  exact h5 c hc

theorem srtCore_last_ne_nl (i : Nat) (e : SrtEntry)
    (hw : wfEntry e = true) : (srtCore i e).getLast? ≠ some '\n' := by
  intro hcon
  have := srtCore_last_not_space i e hw '\n' hcon
  exact absurd this (by decide)

theorem parseBlock_srtCore (i : Nat) (e : SrtEntry) (hw : wfEntry e = true) :
    parseBlock (srtCore i e) =
      some ⟨(i : Int), e.start_time, e.end_time, e.text⟩ := by
  obtain ⟨hs, he, htne, hnl, -⟩ := wfEntry_spec e hw
  have hnlt : ∀ c ∈ e.start_time ++ arrowSep ++ e.end_time, c ≠ '\n' := by
    intro c hc
    rcases List.mem_append.mp hc with hc | hc
    · rcases List.mem_append.mp hc with hc | hc
      · exact (timestamp_char_classes c
          (validTimestamp_chars _ hs c hc)).1
      · simp only [arrowSep, List.mem_cons, List.not_mem_nil,
          or_false] at hc
        rcases hc with rfl | rfl | rfl | rfl | rfl <;> decide
    · exact (timestamp_char_classes c (validTimestamp_chars _ he c hc)).1
  have hsp : splitArrow (e.start_time ++ arrowSep ++ e.end_time) =
      [e.start_time, e.end_time] :=
    splitArrow_pair _ _
      (fun c hc => (timestamp_char_classes c
        (validTimestamp_chars _ hs c hc)).2.1)
      (fun c hc => (timestamp_char_classes c
        (validTimestamp_chars _ he c hc)).2.1)
  unfold parseBlock srtCore
  rw [splitChar_core (natDigits i) _ e.text
    (fun c hc => (digit_not_special c (natDigits_digits i c hc)).2.1)
    hnlt hnl]
  simp only [List.length_cons, List.length_nil, List.headD_cons,
    List.getD_cons_succ, List.getD_cons_zero]
  rw [if_pos (by norm_num), pyInt_natDigits i, hsp]
  rfl

theorem srtCore_head (i : Nat) (e : SrtEntry) :
    ∃ c, (srtCore i e).head? = some c ∧ isDigitChar c = true := by
  obtain ⟨c, hc, hm⟩ := head?_of_ne_nil (natDigits i) (natDigitsGo_ne_nil i i)
  exact ⟨c, head?_append_left _ _ c hc, natDigits_digits i c hm⟩

theorem srtCore_ne_nil (i : Nat) (e : SrtEntry) : srtCore i e ≠ [] := by
  intro hcon
  obtain ⟨c, hc, -⟩ := srtCore_head i e
  rw [hcon] at hc
  exact Option.noConfusion hc

theorem coresCat_ne_nil (i : Nat) (e : SrtEntry) (rest : List SrtEntry) :
    coresCat i (e :: rest) ≠ [] := by
  cases rest with
  | nil => exact srtCore_ne_nil i e
  | cons e2 r =>
    show srtCore i e ++ '\n' :: '\n' :: coresCat (i + 1) (e2 :: r) ≠ []
    intro hcon
    exact srtCore_ne_nil i e (List.append_eq_nil.mp hcon).1

theorem coresCat_head (i : Nat) (e : SrtEntry) (rest : List SrtEntry) :
    ∃ c, (coresCat i (e :: rest)).head? = some c ∧ isDigitChar c = true := by
  obtain ⟨c, hc, hd⟩ := srtCore_head i e
  cases rest with
  | nil => exact ⟨c, hc, hd⟩
  | cons e2 r =>
    exact ⟨c, head?_append_left _ _ c hc, hd⟩

theorem coresCat_last : ∀ (rest : List SrtEntry) (e : SrtEntry) (i : Nat),
    (∀ x ∈ e :: rest, wfEntry x = true) →
    ∀ c, (coresCat i (e :: rest)).getLast? = some c →
      isPySpace c = false := by
  intro rest
  induction rest with
  | nil =>
    intro e i hw c hc
    exact srtCore_last_not_space i e (hw e (List.mem_cons_self e [])) c hc
  | cons e2 rest' ih =>
    intro e i hw c hc
    rw [show coresCat i (e :: e2 :: rest') =
        srtCore i e ++ '\n' :: '\n' :: coresCat (i + 1) (e2 :: rest')
        from rfl,
      getLast?_append_right _ _ (by simp),
      show ('\n' :: '\n' :: coresCat (i + 1) (e2 :: rest')) =
        ['\n', '\n'] ++ coresCat (i + 1) (e2 :: rest') from rfl,
      getLast?_append_right _ _ (coresCat_ne_nil (i + 1) e2 rest')] at hc
    exact ih e2 (i + 1) (fun x hx => hw x (List.mem_cons_of_mem e hx)) c hc

theorem pyStrip_append_NN (l : List Char) (hne : l ≠ [])
    (hhead : ∀ c, l.head? = some c → isPySpace c = false)
    (hlast : ∀ c, l.getLast? = some c → isPySpace c = false) :
    pyStrip (l ++ ['\n', '\n']) = l := by
  unfold pyStrip
  have h1 : (l ++ ['\n', '\n']).dropWhile isPySpace = l ++ ['\n', '\n'] := by
    cases l with
    | nil => exact absurd rfl hne
    | cons c l' =>
      rw [List.cons_append, List.dropWhile_cons_of_neg]
      simp [hhead c rfl]
  rw [h1]
  have h2 : (l ++ ['\n', '\n']).reverse = '\n' :: '\n' :: l.reverse := by
    simp
  rw [h2, List.dropWhile_cons_of_pos (by decide),
    List.dropWhile_cons_of_pos (by decide)]
  have h4 : l.reverse.dropWhile isPySpace = l.reverse := by
    cases hr : l.reverse with
    | nil => rfl
    | cons c cs =>
      rw [List.dropWhile_cons_of_neg]
      have hlc : l.getLast? = some c := by
        rw [← List.head?_reverse, hr]
        rfl
      simp [hlast c hlc]
  rw [h4, List.reverse_reverse]

theorem pyStrip_saveFrom (subs : List SrtEntry) (i : Nat) (hne : subs ≠ [])
    (hw : ∀ x ∈ subs, wfEntry x = true) :
    pyStrip (saveFrom i subs) = coresCat i subs := by
  cases subs with
  | nil => exact absurd rfl hne
  | cons e rest =>
    rw [saveFrom_eq_coresCat _ i (by simp)]
    apply pyStrip_append_NN _ (coresCat_ne_nil i e rest)
    · intro c hc
      obtain ⟨c', hc', hd⟩ := coresCat_head i e rest
      rw [hc'] at hc
      rw [← Option.some.inj hc]
      exact (digit_not_special c' hd).1
    · exact coresCat_last rest e i hw

theorem filterMap_coresCat : ∀ (subs : List SrtEntry) (i : Nat),
    (∀ x ∈ subs, wfEntry x = true) → subs ≠ [] →
    (splitNN (coresCat i subs)).filterMap parseBlock = renumber i subs := by
  intro subs
  induction subs with
  | nil => intro i _ h; exact absurd rfl h
  | cons e rest ih =>
    intro i hw _
    have hwe := hw e (List.mem_cons_self e rest)
    cases rest with
    | nil =>
      show (splitNN (srtCore i e)).filterMap parseBlock = renumber i [e]
      unfold splitNN
      rw [splitNNAux_no_sep (srtCore i e) [] (srtCore_chain i e hwe),
        List.reverse_nil, List.nil_append,
        List.filterMap_cons_some (parseBlock_srtCore i e hwe),
        List.filterMap_nil]
      rfl
    | cons e2 rest' =>
      show (splitNN (srtCore i e ++
          '\n' :: '\n' :: coresCat (i + 1) (e2 :: rest'))).filterMap
          parseBlock = renumber i (e :: e2 :: rest')
      unfold splitNN
      rw [splitNNAux_sep (srtCore i e) _ [] (srtCore_chain i e hwe)
          (srtCore_last_ne_nl i e hwe),
        List.reverse_nil, List.nil_append,
        List.filterMap_cons_some (parseBlock_srtCore i e hwe),
        show splitNNAux (coresCat (i + 1) (e2 :: rest')) [] =
          splitNN (coresCat (i + 1) (e2 :: rest')) from rfl,
        ih (i + 1) (fun x hx => hw x (List.mem_cons_of_mem e hx))
          (by simp)]
      rfl

theorem renumber_eq_mapIdx : ∀ (subs : List SrtEntry) (k : Nat),
    renumber (k + 1) subs =
      subs.mapIdx (fun j e =>
        ⟨((j + k + 1 : Nat) : Int), e.start_time, e.end_time, e.text⟩) := by
  intro subs
  induction subs with
  | nil => intro k; rfl
  | cons e rest ih =>
    intro k
    rw [List.mapIdx_cons]
    have hf : (fun (j : Nat) (x : SrtEntry) =>
        (⟨((j + 1 + k + 1 : Nat) : Int), x.start_time, x.end_time,
          x.text⟩ : SrtEntry)) =
        (fun (j : Nat) (x : SrtEntry) =>
        (⟨((j + (k + 1) + 1 : Nat) : Int), x.start_time, x.end_time,
          x.text⟩ : SrtEntry)) := by
      funext j x
      have harith : j + 1 + k + 1 = j + (k + 1) + 1 := by omega
      rw [harith]
    show (⟨((k + 1 : Nat) : Int), e.start_time, e.end_time, e.text⟩ :
        SrtEntry) :: renumber (k + 1 + 1) rest =
      (⟨((0 + k + 1 : Nat) : Int), e.start_time, e.end_time, e.text⟩ :
        SrtEntry) :: rest.mapIdx (fun j x =>
        ⟨((j + 1 + k + 1 : Nat) : Int), x.start_time, x.end_time, x.text⟩)
    rw [hf, ih (k + 1)]
    have h0 : 0 + k + 1 = k + 1 := by omega
    rw [h0]

/-- A canonical timestamp literal used in the concrete checks. -/
def ts1 : List Char := ['0', '0', ':', '0', '0', ':', '0', '1', '.', '0', '0', '0']

/-- A second canonical timestamp literal used in the concrete checks. -/
def ts2 : List Char := ['0', '0', ':', '0', '0', ':', '0', '2', '.', '0', '0', '0']

/-- C7 counterexample: an entry whose fields are well formed in the
sense of the claim (canonical timestamps, non-empty single-line text)
but whose text ends in a space does not survive the round trip: the
content.strip() call in load_srt erases the trailing space of the last
entry's text, so the text comes back as "a" instead of "a ". -/
theorem srt_round_trip_cex :
    validTimestamp ts1 = true ∧ validTimestamp ts2 = true ∧
    (['a', ' '] : List Char) ≠ [] ∧ (∀ c ∈ (['a', ' '] : List Char), c ≠ '\n') ∧
    loadSrt (saveSrt [⟨1, ts1, ts2, ['a', ' ']⟩]) =
      [⟨1, ts1, ts2, ['a']⟩] := by
  decide

/-- C7: for a sequence of entries with canonical timestamps and
non-empty single-line text whose final character is not whitespace,
load_srt after save_srt reproduces the sequence with every field equal
except index, and each index equal to the entry's 1-based position. -/
theorem srt_round_trip (subs : List SrtEntry)
    (hw : ∀ e ∈ subs, wfEntry e = true) :
    loadSrt (saveSrt subs) =
      subs.mapIdx (fun j e =>
        ⟨((j + 1 : Nat) : Int), e.start_time, e.end_time, e.text⟩) := by
  cases subs with
  | nil => rfl
  | cons e rest =>
    have h1 : loadSrt (saveSrt (e :: rest)) = renumber 1 (e :: rest) := by
      unfold loadSrt
      rw [saveSrt_eq_saveFrom,
        pyStrip_saveFrom (e :: rest) 1 (by simp) hw]
      exact filterMap_coresCat (e :: rest) 1 hw (by simp)
    rw [h1]
    exact renumber_eq_mapIdx (e :: rest) 0

/-- The round-trip theorem applied to a concrete two-entry sequence
with out-of-order indices 5 and 9: the result keeps every field except
the indices, which come back as 1 and 2. -/
theorem srt_round_trip_witness :
    (∀ e ∈ [(⟨5, ts1, ts2, ['h', 'i']⟩ : SrtEntry),
            (⟨9, ts2, ts1, ['o', 'k']⟩ : SrtEntry)], wfEntry e = true) ∧
    loadSrt (saveSrt [(⟨5, ts1, ts2, ['h', 'i']⟩ : SrtEntry),
        (⟨9, ts2, ts1, ['o', 'k']⟩ : SrtEntry)]) =
      [(⟨5, ts1, ts2, ['h', 'i']⟩ : SrtEntry),
       (⟨9, ts2, ts1, ['o', 'k']⟩ : SrtEntry)].mapIdx (fun j e =>
        ⟨((j + 1 : Nat) : Int), e.start_time, e.end_time, e.text⟩) :=
  ⟨by decide, srt_round_trip _ (by decide)⟩
